import Mathlib

/-!
# trichner/tb: tiered token store, set and ref parsing

A shallow embedding of

* `pkg/keyring/keyring.go` (the typed wrapper over the OS secret store),
* `pkg/oauth2tokenstore/tokenstore.go` (the tiered token store and its
  encrypted-file fallback),
* `pkg/set/set.go`,
* `parseRefs`, `parseRefLine` and `parseVersionWithGroup` of `cmd/tags/tags.go`.

Everything outside the repository (the OS secret store behind `go-keyring`,
the file system, the random source, `secretbox`, `sha256`, `encoding/json`)
is a field of `Env`; the persistent state they act on is `World`. The semver
parser is a parameter of `parseVersionWithGroup`; `regexp` and `bufio.Scanner`
are modelled as far as the repository uses them.
Go strings are embedded as `String`, `[]byte` as lists of numbers below 256.
Calls to `log.Printf` have no effect on any modelled state and are left out.
-/

namespace Tb

/-! ## Bytes, UTF-8 and hex -/

/-- Byte slices (`[]byte`). -/
abbrev Bytes := List Nat

/-- UTF-8 encoding of one character: the bytes Go holds for it in a string. -/
def utf8EncodeChar (c : Char) : Bytes :=
  let n := c.toNat
  if n < 128 then [n]
  else if n < 2048 then [192 + n / 64, 128 + n % 64]
  else if n < 65536 then [224 + n / 4096, 128 + n / 64 % 64, 128 + n % 64]
  else [240 + n / 262144, 128 + n / 4096 % 64, 128 + n / 64 % 64, 128 + n % 64]

/-- The conversion `[]byte(s)`. -/
def toBytes (s : String) : Bytes := s.data.flatMap utf8EncodeChar

/-- The table `hextable = "0123456789abcdef"` of `encoding/hex`. -/
def hextable : List Char :=
  ['0', '1', '2', '3', '4', '5', '6', '7', '8', '9', 'a', 'b', 'c', 'd', 'e', 'f']

/-- The two characters `hextable[v>>4]`, `hextable[v&0x0f]` written for the byte `v`. -/
def hexOfByte (v : Nat) : List Char :=
  [hextable.getD (v % 256 / 16) '0', hextable.getD (v % 16) '0']

/-- Model of `hex.EncodeToString`. -/
def EncodeToString (src : Bytes) : String := String.mk (src.flatMap hexOfByte)

/-- The table `reverseHexTable` of `encoding/hex`: the value of a hex digit, `none` for
the entries holding `0xff`. -/
def fromHexChar (c : Nat) : Option Nat :=
  if 48 ≤ c ∧ c ≤ 57 then some (c - 48)
  else if 97 ≤ c ∧ c ≤ 102 then some (c - 87)
  else if 65 ≤ c ∧ c ≤ 70 then some (c - 55)
  else none

/-- Run-time panics of the Go code. -/
inductive Panic
  | indexOutOfRange
  | sliceBoundsOutOfRange
  deriving DecidableEq, Repr

/-- Errors made outside the repository. `wrap` is an error that wraps another one. -/
inductive ExtErr
  | zkErrNotFound
  | zkErrSetDataTooBig
  | other (msg : String)
  | wrap (msg : String) (inner : ExtErr)
  deriving DecidableEq, Repr

/-- The test `errors.Is(err, zk.ErrNotFound)`. -/
def ExtErr.isNotFound : ExtErr → Bool
  | .zkErrNotFound => true
  | .wrap _ e => e.isNotFound
  | _ => false

/-- The test `errors.Is(err, zk.ErrSetDataTooBig)`. -/
def ExtErr.isSetDataTooBig : ExtErr → Bool
  | .zkErrSetDataTooBig => true
  | .wrap _ e => e.isSetDataTooBig
  | _ => false

/-- Model of `hex.Decode(dst, src)` for a destination of `cap` bytes: `acc` holds the
bytes written so far. The result is the bytes written and the returned error; writing
`dst[i]` with `i = cap` panics. -/
def hexDecodeLoop (cap : Nat) : Bytes → Bytes → Except Panic (Bytes × Option ExtErr)
  | [], acc => .ok (acc, none)
  | [p], acc =>
    match fromHexChar p with
    | none => .ok (acc, some (.other "encoding/hex: invalid byte"))
    | some _ => .ok (acc, some (.other "encoding/hex: odd length hex string"))
  | p :: q :: rest, acc =>
    match fromHexChar p with
    | none => .ok (acc, some (.other "encoding/hex: invalid byte"))
    | some a =>
      match fromHexChar q with
      | none => .ok (acc, some (.other "encoding/hex: invalid byte"))
      | some b =>
        if acc.length < cap then hexDecodeLoop cap rest (acc ++ [a * 16 + b])
        else .error .indexOutOfRange

/-- The array `secretKey` after `hex.Decode(secretKey[:], src)`: the decoded bytes
followed by the zero bytes that were not overwritten. -/
def hexDecodeInto (cap : Nat) (src : Bytes) : Except Panic (Bytes × Option ExtErr) :=
  match hexDecodeLoop cap src [] with
  | .error p => .error p
  | .ok (acc, err) => .ok (acc ++ List.replicate (cap - acc.length) 0, err)

/-! ## The outside world -/

/-- A SHA-256 digest: the Go type `[32]byte`. -/
abbrev Digest := { b : Bytes // b.length = 32 }

/-- Behaviour of everything outside the repository. The `...Fault` fields say, for the
call made at a given clock value, whether the call fails and with which error. -/
structure Env (Token : Type) where
  /-- Result of `json.Marshal(token)`, for a possibly nil `*oauth2.Token`. -/
  marshal : Option Token → Except ExtErr String
  /-- Result of `json.Unmarshal(data, &token)`. -/
  unmarshal : Bytes → Except ExtErr Token
  /-- Result of `secretbox.Seal(nil, message, nonce, key)`. -/
  secretboxSeal : Bytes → Bytes → Bytes → Bytes
  /-- Result of `secretbox.Open(nil, box, nonce, key)`. -/
  secretboxOpen : Bytes → Bytes → Bytes → Option Bytes
  /-- Result of `sha256.Sum256`. -/
  sum256 : Bytes → Digest
  /-- Failure of `zk.Set(service, user, password)`. -/
  setFault : Nat → String → String → String → Option ExtErr
  /-- Failure of `zk.Get(service, user)` other than the entry being absent. -/
  getFault : Nat → String → String → Option ExtErr
  /-- Failure of `zk.Delete(service, user)` other than the entry being absent. -/
  deleteFault : Nat → String → String → Option ExtErr
  /-- Failure of `os.WriteFile(path, ...)`. -/
  writeFault : Nat → String → Option ExtErr
  /-- Failure of `os.ReadFile(path)` other than the file being absent. -/
  readFault : Nat → String → Option ExtErr
  /-- Failure of `os.Remove(path)` other than the file being absent. -/
  removeFault : Nat → String → Option ExtErr
  /-- Failure of reading `rand.Reader`. -/
  randFault : Nat → Option ExtErr
  /-- The `i`-th byte delivered by `rand.Reader` in the call made at a clock value. -/
  randByte : Nat → Nat → Nat

/-- The persistent state: the entries of the OS secret store by service and user, the
files by path, and the number of outside calls made so far. -/
structure World where
  secrets : String → String → Option String
  files : String → Option Bytes
  clock : Nat

/-- The state with no secret and no file. -/
def World.empty : World := ⟨fun _ _ => none, fun _ => none, 0⟩

/-- One outside call has been made. -/
def World.tick (w : World) : World := ⟨w.secrets, w.files, w.clock + 1⟩

/-- The state after the secret of `(service, user)` is set to `v`. -/
def World.setSecret (w : World) (service user : String) (v : Option String) : World :=
  ⟨fun s u => if s = service ∧ u = user then v else w.secrets s u, w.files, w.clock⟩

/-- The state after the file at `path` is set to `v`. -/
def World.setFile (w : World) (path : String) (v : Option Bytes) : World :=
  ⟨w.secrets, fun p => if p = path then v else w.files p, w.clock⟩

variable {Token : Type}

/-- Model of `zk.Set`. -/
def zkSet (E : Env Token) (service user password : String) (w : World) :
    Option ExtErr × World :=
  match E.setFault w.clock service user password with
  | some e => (some e, w.tick)
  | none => (none, (w.setSecret service user (some password)).tick)

/-- Model of `zk.Get`. -/
def zkGet (E : Env Token) (service user : String) (w : World) :
    Except ExtErr String × World :=
  match E.getFault w.clock service user with
  | some e => (.error e, w.tick)
  | none =>
    match w.secrets service user with
    | none => (.error .zkErrNotFound, w.tick)
    | some v => (.ok v, w.tick)

/-- Model of `zk.Delete`. -/
def zkDelete (E : Env Token) (service user : String) (w : World) :
    Option ExtErr × World :=
  match E.deleteFault w.clock service user with
  | some e => (some e, w.tick)
  | none =>
    match w.secrets service user with
    | none => (some .zkErrNotFound, w.tick)
    | some _ => (none, (w.setSecret service user none).tick)

/-- Model of `os.WriteFile(path, data, 0o600)`. -/
def osWriteFile (E : Env Token) (path : String) (data : Bytes) (w : World) :
    Option ExtErr × World :=
  match E.writeFault w.clock path with
  | some e => (some e, w.tick)
  | none => (none, (w.setFile path (some data)).tick)

/-- Model of `os.ReadFile(path)`. -/
def osReadFile (E : Env Token) (path : String) (w : World) :
    Except ExtErr Bytes × World :=
  match E.readFault w.clock path with
  | some e => (.error e, w.tick)
  | none =>
    match w.files path with
    | none => (.error (.other "no such file or directory"), w.tick)
    | some d => (.ok d, w.tick)

/-- Model of `os.Remove(path)`. -/
def osRemove (E : Env Token) (path : String) (w : World) : Option ExtErr × World :=
  match E.removeFault w.clock path with
  | some e => (some e, w.tick)
  | none =>
    match w.files path with
    | none => (some (.other "no such file or directory"), w.tick)
    | some _ => (none, (w.setFile path none).tick)

/-- The `n` bytes `rand.Reader` delivers in the call made at clock value `t`. -/
def freshBytes (E : Env Token) (n t : Nat) : Bytes :=
  (List.range n).map fun i => E.randByte t i % 256

/-- Model of `io.ReadFull(rand.Reader, buf[:])` for a buffer of `n` bytes. -/
def randReadFull (E : Env Token) (n : Nat) (w : World) : Except ExtErr Bytes × World :=
  match E.randFault w.clock with
  | some e => (.error e, w.tick)
  | none => (.ok (freshBytes E n w.clock), w.tick)

/-! ## pkg/keyring/keyring.go -/

/-- Errors seen by the repository: the two sentinels of package `keyring`, errors from
outside, and the errors built with `fmt.Errorf`, with (`wrap`) or without (`msg`) a
wrapped error; the format string and its arguments are kept apart. -/
inductive Err
  | ErrNotFound
  | ErrTooBig
  | ext (e : ExtErr)
  | msg (text : String)
  | wrap (format : String) (args : List String) (inner : Err)
  deriving DecidableEq, Repr

/-- The test `errors.Is(err, keyring.ErrNotFound)`. -/
def Err.isNotFound : Err → Bool
  | .ErrNotFound => true
  | .wrap _ _ e => e.isNotFound
  | _ => false

/-- The test `errors.Is(err, keyring.ErrTooBig)`. -/
def Err.isTooBig : Err → Bool
  | .ErrTooBig => true
  | .wrap _ _ e => e.isTooBig
  | _ => false

namespace keyring

/-- The struct `keyring.Item`. -/
structure Item where
  Secret : String
  deriving DecidableEq, Repr

/-- The struct `keyring.Ring`. -/
structure Ring where
  serviceName : String
  deriving DecidableEq, Repr

/-- Model of `keyring.Open`. -/
def Open (service : String) : Except Err Ring := .ok ⟨service⟩

/-- Model of `(*Ring).Put`; `item = none` is the nil item. -/
def Ring.Put (E : Env Token) (r : Ring) (name : String) (item : Option Item) (w : World) :
    Option Err × World :=
  match item with
  | none =>
    let d := zkDelete E r.serviceName name w
    (d.1.map Err.ext, d.2)
  | some it =>
    let s := zkSet E r.serviceName name it.Secret w
    match s.1 with
    | none => (none, s.2)
    | some e => if e.isSetDataTooBig then (some .ErrTooBig, s.2) else (some (.ext e), s.2)

/-- Model of `(*Ring).Get`. -/
def Ring.Get (E : Env Token) (r : Ring) (name : String) (w : World) :
    Except Err Item × World :=
  let g := zkGet E r.serviceName name w
  match g.1 with
  | .error e => if e.isNotFound then (.error .ErrNotFound, g.2) else (.error (.ext e), g.2)
  | .ok secret => (.ok ⟨secret⟩, g.2)

end keyring

/-! ## pkg/oauth2tokenstore/tokenstore.go -/

/-- What a `Get` call does: it returns `(token, err)` or panics. -/
inductive Outcome (Token : Type)
  | ret (token : Option Token) (err : Option Err)
  | panic (p : Panic)
  deriving DecidableEq

/-- The struct `secretBoxFileTokenStore`. -/
structure secretBoxFileTokenStore where
  ringName : String
  deriving DecidableEq, Repr

/-- The struct `KeyringTokenStore`. -/
structure KeyringTokenStore where
  serviceName : String
  fileTokenStore : secretBoxFileTokenStore
  deriving DecidableEq, Repr

/-- Model of `NewKeyringTokenStore`. -/
def NewKeyringTokenStore (serviceName : String) : KeyringTokenStore :=
  ⟨serviceName, ⟨serviceName ++ "-keys"⟩⟩

/-- Model of `deriveFileName`. -/
def deriveFileName (E : Env Token) (ring key : String) : String :=
  let hashed := E.sum256 (toBytes (ring ++ "-" ++ key))
  let s := EncodeToString (hashed.val.take 16)
  "token_" ++ s ++ ".bin"

/-- Model of `(*secretBoxFileTokenStore).cleanupKey`. -/
def secretBoxFileTokenStore.cleanupKey (E : Env Token) (k : secretBoxFileTokenStore)
    (key : String) (w : World) : World :=
  let w1 :=
    match keyring.Open k.ringName with
    | .ok ring => (ring.Put E key none w).2
    | .error _ => w
  (osRemove E (deriveFileName E k.ringName key) w1).2

/-- Model of `(*secretBoxFileTokenStore).Get`. -/
def secretBoxFileTokenStore.Get (E : Env Token) (k : secretBoxFileTokenStore) (key : String)
    (w : World) : Outcome Token × World :=
  match keyring.Open k.ringName with
  | .error err => (.ret none (some err), w)
  | .ok ring =>
    let g := ring.Get E key w
    match g.1 with
    | .error err =>
      if err.isNotFound then (.ret none none, g.2)
      else (.ret none (some (.wrap "cannot read %s token for %q: %w" [k.ringName, key] err)),
        k.cleanupKey E key g.2)
    | .ok item =>
      match hexDecodeInto 32 (toBytes item.Secret) with
      | .error p => (.panic p, g.2)
      | .ok (_, some e) =>
        (.ret none (some (.wrap "failed to decode key for %q: %w" [k.ringName] (.ext e))), g.2)
      | .ok (secretKey, none) =>
        let f := deriveFileName E k.ringName key
        let r := osReadFile E f g.2
        match r.1 with
        | .error e =>
          (.ret none (some (.wrap "failed to read token file %q: %w" [f] (.ext e))),
            k.cleanupKey E key r.2)
        | .ok encrypted =>
          -- `encrypted[:24]` is within the capacity of the slice; `encrypted[24:]` is
          -- out of range when the file has fewer than 24 bytes
          if encrypted.length < 24 then (.panic .sliceBoundsOutOfRange, r.2)
          else
            let decryptNonce := encrypted.take 24
            match E.secretboxOpen (encrypted.drop 24) decryptNonce secretKey with
            | none => (.ret none (some (.msg "cannot decrypt token file")), k.cleanupKey E key r.2)
            | some decrypted =>
              match E.unmarshal decrypted with
              | .error e =>
                (.ret none (some (.wrap "invalid %s token for %q: %w" [k.ringName, key] (.ext e))),
                  k.cleanupKey E key r.2)
              | .ok token => (.ret (some token) none, r.2)

/-- Model of `(*secretBoxFileTokenStore).Put`. -/
def secretBoxFileTokenStore.Put (E : Env Token) (k : secretBoxFileTokenStore) (key : String)
    (token : Option Token) (w : World) : Option Err × World :=
  match keyring.Open k.ringName with
  | .error err => (some err, w)
  | .ok ring =>
    match E.marshal token with
    | .error e => (some (.ext e), w)
    | .ok data =>
      let r1 := randReadFull E 32 w
      match r1.1 with
      | .error e => (some (.wrap "cannot generate cryptographic key: %w" [] (.ext e)), r1.2)
      | .ok secretKey =>
        let r2 := randReadFull E 24 r1.2
        match r2.1 with
        | .error e => (some (.wrap "cannot generate cryptographic nonce: %w" [] (.ext e)), r2.2)
        | .ok nonce =>
          let encrypted := nonce ++ E.secretboxSeal (toBytes data) nonce secretKey
          let f := deriveFileName E k.ringName key
          let wr := osWriteFile E f encrypted r2.2
          match wr.1 with
          | some e => (some (.wrap "failed to write token file %q: %w" [f] (.ext e)), wr.2)
          | none =>
            let p := ring.Put E key (some ⟨EncodeToString secretKey⟩) wr.2
            match p.1 with
            | none => (none, p.2)
            | some err =>
              if err.isTooBig then (none, p.2)
              else (some (.wrap "failed to store token for %s: %w" [k.ringName] err), p.2)

/-- Model of `(*KeyringTokenStore).Get`. -/
def KeyringTokenStore.Get (E : Env Token) (k : KeyringTokenStore) (key : String) (w : World) :
    Outcome Token × World :=
  match keyring.Open k.serviceName with
  | .error err => (.ret none (some err), w)
  | .ok ring =>
    let g := ring.Get E key w
    match g.1 with
    | .error err =>
      if err.isNotFound then k.fileTokenStore.Get E key g.2
      else (.ret none (some (.wrap "cannot read %s token for %q: %w" [k.serviceName, key] err)),
        g.2)
    | .ok item =>
      match E.unmarshal (toBytes item.Secret) with
      | .error e =>
        (.ret none (some (.wrap "invalid %s token for %q: %w" [k.serviceName, key] (.ext e))),
          g.2)
      | .ok token => (.ret (some token) none, g.2)

/-- Model of `(*KeyringTokenStore).Put`. -/
def KeyringTokenStore.Put (E : Env Token) (k : KeyringTokenStore) (key : String)
    (token : Option Token) (w : World) : Option Err × World :=
  match keyring.Open k.serviceName with
  | .error err => (some err, w)
  | .ok ring =>
    match E.marshal token with
    | .error e => (some (.ext e), w)
    | .ok data =>
      let p := ring.Put E key (some ⟨data⟩) w
      match p.1 with
      | none => (none, p.2)
      | some err =>
        if err.isTooBig then k.fileTokenStore.Put E key token p.2
        else (some (.wrap "failed to store token for %s: %w" [k.serviceName] err), p.2)

/-- A call on the tiered store. -/
inductive Call (Token : Type)
  | put (key : String) (token : Option Token)
  | get (key : String)

/-- The state after a call (a panic leaves the state as it is at that moment). -/
def Call.run (E : Env Token) (k : KeyringTokenStore) : Call Token → World → World
  | .put key token, w => (k.Put E key token w).2
  | .get key, w => (k.Get E key w).2

/-- The state after a sequence of calls. -/
def runCalls (E : Env Token) (k : KeyringTokenStore) (calls : List (Call Token)) (w : World) :
    World :=
  calls.foldl (fun w1 c => c.run E k w1) w

/-- The slot state `StoredInRing`: the primary ring holds a token under `key`. -/
def StoredInRing (k : KeyringTokenStore) (w : World) (key : String) : Prop :=
  (w.secrets k.serviceName key).isSome = true

/-- The slot state `StoredInFile`: the "-keys" ring holds a key under `key` and the
encrypted token file of the slot is present. -/
def StoredInFile (E : Env Token) (k : KeyringTokenStore) (w : World) (key : String) : Prop :=
  (w.secrets k.fileTokenStore.ringName key).isSome = true
    ∧ (w.files (deriveFileName E k.fileTokenStore.ringName key)).isSome = true

/-- The "-keys" ring holds a key under `key`, with or without its token file. -/
def KeyInKeysRing (k : KeyringTokenStore) (w : World) (key : String) : Prop :=
  (w.secrets k.fileTokenStore.ringName key).isSome = true

/-- Every key has one size class in the calls made: under a key with `big key = true` the
primary ring stores no token that is put, and under the other keys it rejects no token
that is put as too big. -/
def OneSizeClass (E : Env Token) (svc : String) (big : String → Bool)
    (calls : List (Call Token)) : Prop :=
  ∀ key token data t, Call.put key token ∈ calls → E.marshal token = .ok data →
    (big key = true → E.setFault t svc key data ≠ none)
      ∧ (big key = false → ∀ e, E.setFault t svc key data = some e →
          e.isSetDataTooBig = false)

/-- The invariant behind C5: the keys of the primary ring are not of the big size
class and the keys of the "-keys" ring are. -/
def SizeClassInv (svc : String) (big : String → Bool) (w : World) : Prop :=
  ∀ key, ((w.secrets svc key).isSome = true → big key = false)
    ∧ ((w.secrets (svc ++ "-keys") key).isSome = true → big key = true)

/-- The collaborators fail by size rejection only: nothing but `zk.Set` ever fails, and
`zk.Set` only with `zk.ErrSetDataTooBig`. -/
def Env.OnlySizeRejection (E : Env Token) : Prop :=
  (∀ t s u, E.getFault t s u = none)
    ∧ (∀ t s u, E.deleteFault t s u = none)
    ∧ (∀ t p, E.writeFault t p = none)
    ∧ (∀ t p, E.readFault t p = none)
    ∧ (∀ t p, E.removeFault t p = none)
    ∧ (∀ t, E.randFault t = none)
    ∧ ∀ t s u v e, E.setFault t s u v = some e → e.isSetDataTooBig = true

/-- The law of `secretbox`: a box opens, under the nonce and key that sealed it, to the
sealed message. -/
def Env.BoxOpens (E : Env Token) : Prop :=
  ∀ message nonce key : Bytes, nonce.length = 24 → key.length = 32 →
    E.secretboxOpen (E.secretboxSeal message nonce key) nonce key = some message

/-! ## pkg/set/set.go -/

namespace set

/-- A Go map `map[K]V`: its entries, in an order that carries no meaning. The keys are
distinct in every map built with `make` and `assign`. -/
structure GoMap (K V : Type) where
  entries : List (K × V)

/-- The map `make(map[K]V)`. -/
def GoMap.make {K V : Type} : GoMap K V := ⟨[]⟩

/-- The assignment `m[key] = value`: the value of an existing key is replaced, a new key
is added. -/
def GoMap.assign {K V : Type} [DecidableEq K] (m : GoMap K V) (key : K) (value : V) :
    GoMap K V :=
  if m.entries.any (fun e => decide (e.1 = key)) then
    ⟨m.entries.map fun e => if e.1 = key then (key, value) else e⟩
  else ⟨m.entries ++ [(key, value)]⟩

/-- The order in which `range` visits the entries of a map. Go leaves it unspecified: it
is some permutation of the entries. -/
structure RangeOrder (α : Type) where
  visit : List α → List α
  perm : ∀ l, (visit l).Perm l

/-- The struct `Set[T]`. -/
structure Set (T : Type) where
  elements : GoMap T Unit

/-- Model of `New`. -/
def New {T : Type} : Set T := ⟨GoMap.make⟩

/-- Model of `(*Set[T]).Add`. -/
def Set.Add {T : Type} [DecidableEq T] (s : Set T) (item : T) : Set T :=
  ⟨s.elements.assign item ()⟩

/-- Model of `(*Set[T]).ToSlice`, for the order `ord` in which the map is visited. -/
def Set.ToSlice {T : Type} (ord : RangeOrder (T × Unit)) (s : Set T) : List T :=
  (ord.visit s.elements.entries).foldl (fun result e => result ++ [e.1]) []

/-- The keys of the map of a set. -/
def Set.keys {T : Type} (s : Set T) : List T := s.elements.entries.map Prod.fst

end set

/-! ## Regular expressions (package `regexp`) -/

/-- The regular expressions used by the repository. -/
inductive Regex
  | empty
  | cls (p : Char → Bool)
  | cat (a b : Regex)
  | alt (a b : Regex)
  | rep (a : Regex) (min : Nat) (max : Option Nat)
  | cap (i : Nat) (a : Regex)
  | bol
  | eol

/-- The numbers of the groups of a regular expression. -/
def Regex.groups : Regex → List Nat
  | .empty => []
  | .cls _ => []
  | .cat a b => a.groups ++ b.groups
  | .alt a b => a.groups ++ b.groups
  | .rep a _ _ => a.groups
  | .cap i a => i :: a.groups
  | .bol => []
  | .eol => []

/-- The submatches found so far: group number, start and end position. -/
abbrev Caps := List (Nat × Nat × Nat)

/-- What remains to be matched: called with the position reached, the text from there on
and the submatches. -/
abbrev Cont := Nat → List Char → Caps → Option Caps

/-- Greedy repetition of `body`, between `min` and `max` times; an iteration that is not
required and matches the empty text is not taken. -/
def repLoop (body : Nat → List Char → Caps → Cont → Option Caps) :
    Nat → Nat → Option Nat → Nat → List Char → Caps → Cont → Option Caps
  | 0, min, _, pos, s, caps, k => if min = 0 then k pos s caps else none
  | fuel + 1, min, max, pos, s, caps, k =>
    if max = some 0 then k pos s caps
    else
      match body pos s caps (fun pos1 s1 caps1 =>
          if min = 0 ∧ pos1 = pos then none
          else repLoop body fuel (min - 1) (max.map (· - 1)) pos1 s1 caps1 k) with
      | some r => some r
      | none => if min = 0 then k pos s caps else none

/-- Leftmost-first matching of a regular expression at position `pos`, where the text
`s` remains, followed by the continuation `k`. -/
def Regex.run : Regex → Nat → List Char → Caps → Cont → Option Caps
  | .empty, pos, s, caps, k => k pos s caps
  | .cls p, pos, s, caps, k =>
    match s with
    | [] => none
    | c :: t => if p c then k (pos + 1) t caps else none
  | .cat a b, pos, s, caps, k => a.run pos s caps (fun pos1 s1 caps1 => b.run pos1 s1 caps1 k)
  | .alt a b, pos, s, caps, k =>
    match a.run pos s caps k with
    | some r => some r
    | none => b.run pos s caps k
  | .rep a min max, pos, s, caps, k => repLoop a.run (min + s.length) min max pos s caps k
  | .cap i a, pos, s, caps, k =>
    a.run pos s caps (fun pos1 s1 caps1 => k pos1 s1 ((i, pos, pos1) :: caps1))
  | .bol, pos, s, caps, k => if pos = 0 then k pos s caps else none
  | .eol, pos, s, caps, k => if s = [] then k pos s caps else none

/-- The continuation at the end of an expression: the match is complete. -/
def kfin : Cont := fun _ _ caps => some caps

/-- The leftmost match of `re` in the text `s` that starts at position `pos` or later. -/
def Regex.search (re : Regex) : Nat → List Char → Option Caps
  | pos, [] => (Regex.cap 0 re).run pos [] [] kfin
  | pos, c :: t =>
    match (Regex.cap 0 re).run pos (c :: t) [] kfin with
    | some caps => some caps
    | none => re.search (pos + 1) t

/-- The text of group `i`: empty when the group took no part in the match. -/
def submatch (s : List Char) (caps : Caps) (i : Nat) : String :=
  match caps.find? (fun c => c.1 = i) with
  | none => ""
  | some (_, start, stop) => String.mk ((s.drop start).take (stop - start))

/-- Model of `(*Regexp).FindStringSubmatch` for an expression with `groups` groups. -/
def FindStringSubmatch (re : Regex) (groups : Nat) (s : String) : Option (List String) :=
  match re.search 0 s.data with
  | none => none
  | some caps => some ((List.range (groups + 1)).map (submatch s.data caps))

/-- Greedy `p*` for a class `p` followed by `k`, as a recursion on the text. -/
def starCls (p : Char → Bool) (k : Cont) : Nat → List Char → Caps → Option Caps
  | pos, [], caps => k pos [] caps
  | pos, c :: t, caps =>
    if p c then
      match starCls p k (pos + 1) t caps with
      | some r => some r
      | none => k pos (c :: t) caps
    else k pos (c :: t) caps

/-- Greedy `p+` for a class `p` followed by `k`. -/
def plusCls (p : Char → Bool) (k : Cont) (pos : Nat) (s : List Char) (caps : Caps) :
    Option Caps :=
  match s with
  | [] => none
  | c :: t => if p c then starCls p k (pos + 1) t caps else none

/-- The matcher of a class `p`: it takes one character of the class. -/
def IsClsRun (p : Char → Bool) (body : Nat → List Char → Caps → Cont → Option Caps) : Prop :=
  ∀ pos s caps k, body pos s caps k
    = match s with
      | [] => none
      | c :: t => if p c then k (pos + 1) t caps else none

/-- A matcher followed by `k` succeeds only through `k`, called with the submatches it was
given and, before them, submatches of the groups `G`. -/
def Extends (G : List Nat) (body : Nat → List Char → Caps → Cont → Option Caps) : Prop :=
  ∀ pos s caps k r, body pos s caps k = some r →
    ∃ pos1 s1 extra, (∀ e ∈ extra, e.1 ∈ G) ∧ k pos1 s1 (extra ++ caps) = some r

/-! ## Package `bufio` -/

/-- The constant `bufio.MaxScanTokenSize`. -/
def MaxScanTokenSize : Nat := 64 * 1024

/-- The function `dropCR` of `bufio`: a trailing carriage return is removed. -/
def dropCR (data : List Char) : List Char :=
  if data.getLast? = some '\r' then data.dropLast else data

/-- The texts between the line feeds of a text, `cur` being the part of the current one
already read; an empty text after the last line feed is not one of them. -/
def scanSegments : List Char → List Char → List (List Char)
  | [], cur => if cur = [] then [] else [cur]
  | c :: t, cur => if c = '\n' then cur :: scanSegments t [] else scanSegments t (cur ++ [c])

/-! ## cmd/tags/tags.go -/
namespace tags

/-- The struct `ref`. -/
structure ref where
  ID : String
  Name : String
  deriving DecidableEq, Repr

/-- The class `[a-f0-9]`. -/
def hexClass (c : Char) : Bool := decide (('a' ≤ c ∧ c ≤ 'f') ∨ ('0' ≤ c ∧ c ≤ '9'))

/-- The class `[ \t]`. -/
def blankClass (c : Char) : Bool := decide (c = ' ' ∨ c = '\t')

/-- The class `[^ ]`. -/
def notSpaceClass (c : Char) : Bool := decide (c ≠ ' ')

/-- The pattern `^([a-f0-9]{40})[ \t]+([^ ]+)$`. -/
def refPattern : Regex :=
  .cat .bol
    (.cat (.cap 1 (.rep (.cls hexClass) 40 (some 40)))
      (.cat (.rep (.cls blankClass) 1 none)
        (.cat (.cap 2 (.rep (.cls notSpaceClass) 1 none)) .eol)))

/-- The errors of `parseRefs`: a line that the pattern rejects, and `bufio.ErrTooLong`. -/
inductive ParseErr
  | badLine (line : String)
  | ErrTooLong
  deriving DecidableEq, Repr

/-- Model of `parseRefLine`. -/
def parseRefLine (line : String) : Except ParseErr ref :=
  match FindStringSubmatch refPattern 2 line with
  | none => .error (.badLine line)
  | some found => .ok ⟨found.getD 1 "", found.getD 2 ""⟩

/-- The loop of `parseRefs` over the texts between line feeds: `scanner.Scan()` fails
with `bufio.ErrTooLong` on a text of `MaxScanTokenSize` bytes or more, and delivers the
others with a trailing carriage return dropped. -/
def parseRefsLoop : List (List Char) → List ref → Except ParseErr (List ref)
  | [], refs => .ok refs
  | seg :: rest, refs =>
    if MaxScanTokenSize ≤ (seg.flatMap utf8EncodeChar).length then .error .ErrTooLong
    else
      match parseRefLine (String.mk (dropCR seg)) with
      | .error err => .error err
      | .ok parsed => parseRefsLoop rest (refs ++ [parsed])

/-- Model of `parseRefs`. -/
def parseRefs (raw : String) : Except ParseErr (List ref) :=
  parseRefsLoop (scanSegments raw.data []) []

/-- Lines joined by line feeds. -/
def joinLines : List (List Char) → List Char
  | [] => []
  | [l] => l
  | l :: l2 :: rest => l ++ '\n' :: joinLines (l2 :: rest)

/-- A line as C10 describes it: an id, a run of blanks, a name. -/
structure RefLine where
  id : List Char
  blanks : List Char
  name : List Char

/-- The text of a line. -/
def RefLine.text (l : RefLine) : List Char := l.id ++ l.blanks ++ l.name

/-- The shape C10 asks of a line: 40 characters of `[0-9a-f]`, a non-empty run of
spaces or tabs, a non-empty name without space, tab or line break. -/
def RefLine.WellShaped (l : RefLine) : Prop :=
  l.id.length = 40 ∧ (∀ c ∈ l.id, hexClass c = true)
    ∧ l.blanks ≠ [] ∧ (∀ c ∈ l.blanks, blankClass c = true)
    ∧ l.name ≠ [] ∧ ∀ c ∈ l.name, c ≠ ' ' ∧ c ≠ '\t' ∧ c ≠ '\n' ∧ c ≠ '\r'

/-- What follows the blanks in `refPattern`: the name up to the end of the line. -/
def nameCont : Cont := fun pos q caps =>
  if q ≠ [] ∧ ∀ c ∈ q, notSpaceClass c = true then
    some ((0, 0, pos + q.length) :: (2, pos, pos + q.length) :: caps)
  else none

/-- The ref C10 expects for a line. -/
def RefLine.toRef (l : RefLine) : ref := ⟨String.mk l.id, String.mk l.name⟩

/-- The class `.`: any character but a line feed. -/
def anyClass (c : Char) : Bool := decide (c ≠ '\n')

/-- The class of the character `/`. -/
def slashClass (c : Char) : Bool := decide (c = '/')

/-- The class of the character `v`. -/
def vClass (c : Char) : Bool := decide (c = 'v')

/-- The class `[0-9]`. -/
def digitClass (c : Char) : Bool := decide ('0' ≤ c ∧ c ≤ '9')

/-- The class of the character `.`, written `\.` in a pattern. -/
def dotClass (c : Char) : Bool := decide (c = '.')

/-- The part `v[0-9]+(\.[0-9]+){0,2}.*$` of the tag pattern. -/
def versionPattern : Regex :=
  .cat (.cls vClass)
    (.cat (.rep (.cls digitClass) 1 none)
      (.cat (.rep (.cap 3 (.cat (.cls dotClass) (.rep (.cls digitClass) 1 none))) 0 (some 2))
        (.cat (.rep (.cls anyClass) 0 none) .eol)))

/-- The part `((.+)/)?` of the tag pattern. -/
def groupPattern : Regex :=
  .rep (.cap 1 (.cat (.cap 2 (.rep (.cls anyClass) 1 none)) (.cls slashClass))) 0 (some 1)

/-- The pattern `^((.+)/)?v[0-9]+(\.[0-9]+){0,2}.*$` of `parseVersionWithGroup`. -/
def tagPattern : Regex := .cat .bol (.cat groupPattern versionPattern)

/-- What follows a whole expression: the submatch 0 is recorded. -/
def wholeCont : Cont := fun p s c => kfin p s ((0, 0, p) :: c)

/-- What follows `.+` in the group of the tag pattern, opened at `pos`: the `/`, after
which the submatches 2 and 1 are recorded. -/
def slashCont (pos : Nat) (k : Cont) : Cont := fun p2 s2 c2 =>
  (Regex.cls slashClass).run p2 s2 ((2, pos, p2) :: c2)
    (fun p3 s3 c3 => k p3 s3 ((1, pos, p3) :: c3))

/-- Model of `strings.TrimPrefix`. -/
def TrimPrefix (s pre : String) : String :=
  if pre.data.isPrefixOf s.data then String.mk (s.data.drop pre.data.length) else s

/-- Model of `parseVersionWithGroup`, which returns `(group, version, err)`. The
function `semver.NewVersion` of the library is the parameter `NewVersion`. -/
def parseVersionWithGroup {Version : Type} (NewVersion : String → Except ExtErr Version)
    (name : String) : String × Option Version × Option Err :=
  match FindStringSubmatch tagPattern 3 name with
  | none => ("", none, some (.msg ("tag '" ++ name ++ "' does not match pattern")))
  | some parsed =>
    let pre := parsed.getD 1 ""
    let group := parsed.getD 2 ""
    let v := TrimPrefix name pre
    match NewVersion v with
    | .ok version => (group, some version, none)
    | .error e => (group, none, some (.ext e))

/-- The lines the pattern accepts: 40 characters of `[0-9a-f]`, a non-empty run of
spaces or tabs, a non-empty rest without space. -/
def Accepted (line : List Char) : Prop :=
  ∃ l : RefLine, line = l.text ∧ l.id.length = 40 ∧ (∀ c ∈ l.id, hexClass c = true)
    ∧ l.blanks ≠ [] ∧ (∀ c ∈ l.blanks, blankClass c = true)
    ∧ l.name ≠ [] ∧ ∀ c ∈ l.name, c ≠ ' '

end tags

/-! ## A concrete outside world

The definitions of this section are not taken from the repository: they give one
possible behaviour of the collaborators, on which the model can be run. The secret
store rejects, as too big, every secret longer than `limit` characters, and nothing
else ever fails. -/

namespace Demo

/-- Tokens are ASCII texts, serialised as themselves. -/
def marshal : Option String → Except ExtErr String
  | none => .ok "null"
  | some t => .ok t

/-- Reads a serialised token back. -/
def unmarshal (data : Bytes) : Except ExtErr String := .ok (String.mk (data.map Char.ofNat))

/-- A 16-byte tag over nonce, key and message. -/
def tag (message nonce key : Bytes) : Bytes :=
  List.replicate 16 ((nonce ++ key ++ message).sum % 256)

/-- A stand-in for `secretbox.Seal`: the tag followed by the message. -/
def boxSeal (message nonce key : Bytes) : Bytes := tag message nonce key ++ message

/-- A stand-in for `secretbox.Open`: the message when the tag is the right one. -/
def boxOpen (box nonce key : Bytes) : Option Bytes :=
  if 16 ≤ box.length ∧ box.take 16 = tag (box.drop 16) nonce key then some (box.drop 16)
  else none

/-- A stand-in for `sha256.Sum256`. -/
def sum256 (data : Bytes) : Digest :=
  ⟨(List.range 32).map fun i => (data.sum + data.length * i) % 256, by simp⟩

/-- The outside world described above. -/
def env (limit : Nat) : Env String where
  marshal := marshal
  unmarshal := unmarshal
  secretboxSeal := boxSeal
  secretboxOpen := boxOpen
  sum256 := sum256
  setFault := fun _ _ _ v => if limit < v.length then some .zkErrSetDataTooBig else none
  getFault := fun _ _ _ => none
  deleteFault := fun _ _ _ => none
  writeFault := fun _ _ => none
  readFault := fun _ _ => none
  removeFault := fun _ _ => none
  randFault := fun _ => none
  randByte := fun t i => 7 * t + i

/-- The file store of the service `svc`. -/
def fileStore : secretBoxFileTokenStore := ⟨"svc-keys"⟩

/-- A token that fits in a ring limited to 70 characters. -/
def smallToken : String := "tok"

/-- A token of 80 characters. -/
def bigToken : String := String.mk (List.replicate 80 'x')

/-- The bytes `d` with the lowest bit of byte `i` flipped. -/
def flipBit (i : Nat) (d : Bytes) : Bytes := d.set i (Nat.xor (d.getD i 0) 1)

/-- The state after the file store has put `smallToken` under `k`. -/
def stored : World := (fileStore.Put (env 100) "k" (some smallToken) World.empty).2

/-- The state `stored` with one bit of the ciphertext flipped. -/
def tampered : World :=
  stored.setFile (deriveFileName (env 100) "svc-keys" "k")
    ((stored.files (deriveFileName (env 100) "svc-keys" "k")).map (flipBit 41))

/-- A state with a key under `k` in the "-keys" ring and no token file. -/
def orphanKey : World :=
  World.empty.setSecret "svc-keys" "k" (some (EncodeToString (List.replicate 32 0)))

/-- The outside world `env 100` in which, from the third outside call on, every lookup
in the secret store fails: the store is locked. -/
def lockedEnv : Env String where
  marshal := marshal
  unmarshal := unmarshal
  secretboxSeal := boxSeal
  secretboxOpen := boxOpen
  sum256 := sum256
  setFault := fun _ _ _ v => if 100 < v.length then some .zkErrSetDataTooBig else none
  getFault := fun t _ _ => if 2 ≤ t then some (.other "keyring locked") else none
  deleteFault := fun _ _ _ => none
  writeFault := fun _ _ => none
  readFault := fun _ _ => none
  removeFault := fun _ _ => none
  randFault := fun _ => none
  randByte := fun t i => 7 * t + i

/-- A state with a valid key under `k` in the "-keys" ring and a token file of 3 bytes. -/
def shortFile : World :=
  orphanKey.setFile (deriveFileName (env 100) "svc-keys" "k") (some [1, 2, 3])

/-- A state with 66 hex characters under `k` in the "-keys" ring. -/
def longKey : World :=
  World.empty.setSecret "svc-keys" "k" (some (String.mk (List.replicate 66 '0')))

/-- Two puts under different keys, one of each size class, and the two reads. -/
def calls : List (Call String) :=
  [.put "a" (some smallToken), .put "b" (some bigToken), .get "a", .get "b"]

/-- The order that visits the entries as they are listed. -/
def listedOrder (α : Type) : set.RangeOrder α := ⟨id, fun l => List.Perm.refl l⟩

end Demo

/-! ## Lines used to run `parseRefs` -/

namespace tags

/-- A line whose name holds a tab. -/
def tabLine : String := "a278d1424a011185748c4690c99c10a6d0676435 x\ty"

/-- A well-shaped line of 65577 characters. -/
def longLine : RefLine :=
  ⟨"a278d1424a011185748c4690c99c10a6d0676435".data, [' '], List.replicate 65536 'x'⟩

/-- A stand-in for `semver.NewVersion`: the text itself, when it is `v`, a digit, and
then digits, letters, `.`, `-` and `+`. -/
def demoNewVersion (v : String) : Except ExtErr String :=
  match v.data with
  | 'v' :: d :: rest =>
    if digitClass d ∧ rest.all (fun c => c.isAlphanum || c = '.' || c = '-' || c = '+') then
      .ok v
    else .error (.other "Invalid Semantic Version")
  | _ => .error (.other "Invalid Semantic Version")

/-- Two well-shaped lines. -/
def twoLines : List RefLine :=
  [⟨"a278d1424a011185748c4690c99c10a6d0676435".data, [' '], "refs/tags/v1.0.0".data⟩,
   ⟨"709b403093309e014853cbecd4731143c694163d".data, ['\t', ' '], "refs/heads/main".data⟩]

end tags

/-! ## Basic facts about the outside world -/

@[simp] theorem World.tick_secrets (w : World) : w.tick.secrets = w.secrets := rfl

@[simp] theorem World.tick_files (w : World) : w.tick.files = w.files := rfl

@[simp] theorem World.tick_clock (w : World) : w.tick.clock = w.clock + 1 := rfl

@[simp] theorem World.setSecret_files (w : World) (s u : String) (v : Option String) :
    (w.setSecret s u v).files = w.files := rfl

@[simp] theorem World.setSecret_clock (w : World) (s u : String) (v : Option String) :
    (w.setSecret s u v).clock = w.clock := rfl

@[simp] theorem World.setSecret_secrets (w : World) (s u : String) (v : Option String)
    (s1 u1 : String) :
    (w.setSecret s u v).secrets s1 u1 = if s1 = s ∧ u1 = u then v else w.secrets s1 u1 := rfl

@[simp] theorem World.setFile_secrets (w : World) (p : String) (v : Option Bytes) :
    (w.setFile p v).secrets = w.secrets := rfl

@[simp] theorem World.setFile_clock (w : World) (p : String) (v : Option Bytes) :
    (w.setFile p v).clock = w.clock := rfl

@[simp] theorem World.setFile_files (w : World) (p : String) (v : Option Bytes) (q : String) :
    (w.setFile p v).files q = if q = p then v else w.files q := rfl

/-- A service name differs from the name of its key ring. -/
theorem ne_append_keys (svc : String) : svc ≠ svc ++ "-keys" := by
  intro h
  have h2 := congrArg String.length h
  simp only [String.length_append] at h2
  have h3 : "-keys".length = 5 := by decide
  omega

/-- Every entry of `hextable` read by `hexOfByte` is a character of `[0-9a-f]`. -/
theorem hextable_getD_class :
    ∀ i < 16, ('0' ≤ hextable.getD i '0' ∧ hextable.getD i '0' ≤ '9')
      ∨ ('a' ≤ hextable.getD i '0' ∧ hextable.getD i '0' ≤ 'f') := by
  decide

theorem hexOfByte_class (v : Nat) :
    ∀ c ∈ hexOfByte v, ('0' ≤ c ∧ c ≤ '9') ∨ ('a' ≤ c ∧ c ≤ 'f') := by
  intro c hc
  simp only [hexOfByte, List.mem_cons, List.mem_singleton, List.not_mem_nil, or_false] at hc
  rcases hc with rfl | rfl
  · exact hextable_getD_class _ (by omega)
  · exact hextable_getD_class _ (by omega)

theorem flatMap_hexOfByte_length (src : Bytes) : (src.flatMap hexOfByte).length = 2 * src.length := by
  induction src with
  | nil => rfl
  | cons b t ih => simp [List.flatMap_cons, hexOfByte, ih] at *; omega

theorem flatMap_hexOfByte_class (src : Bytes) :
    ∀ c ∈ src.flatMap hexOfByte, ('0' ≤ c ∧ c ≤ '9') ∨ ('a' ≤ c ∧ c ≤ 'f') := by
  intro c hc
  rcases List.mem_flatMap.1 hc with ⟨v, _, hv⟩
  exact hexOfByte_class v c hv

/-- Each entry of `hextable` is one byte in a string, and `reverseHexTable` maps it back
to its index. -/
theorem hextable_roundtrip :
    ∀ i < 16, utf8EncodeChar (hextable.getD i '0') = [(hextable.getD i '0').toNat]
      ∧ fromHexChar (hextable.getD i '0').toNat = some i := by
  decide

theorem toBytes_EncodeToString_cons (v : Nat) (t : Bytes) :
    toBytes (EncodeToString (v :: t))
      = (hextable.getD (v % 256 / 16) '0').toNat :: (hextable.getD (v % 16) '0').toNat
          :: toBytes (EncodeToString t) := by
  have h1 := (hextable_roundtrip (v % 256 / 16) (by omega)).1
  have h2 := (hextable_roundtrip (v % 16) (by omega)).1
  simp only [toBytes, EncodeToString, hexOfByte, List.flatMap_cons, List.flatMap_append,
    List.flatMap_nil, h1, h2, List.cons_append, List.nil_append, List.append_nil]

/-- Decoding the hex encoding of bytes gives the bytes back, when they fit. -/
theorem hexDecodeLoop_EncodeToString (cap : Nat) (src : Bytes) :
    ∀ acc : Bytes, (∀ b ∈ src, b < 256) → acc.length + src.length ≤ cap →
      hexDecodeLoop cap (toBytes (EncodeToString src)) acc = .ok (acc ++ src, none) := by
  induction src with
  | nil => intro acc _ _; simp [toBytes, EncodeToString, hexDecodeLoop]
  | cons v t ih =>
    intro acc hb hlen
    have hv : v < 256 := hb v (List.mem_cons_self _ _)
    have h1 := (hextable_roundtrip (v % 256 / 16) (by omega)).2
    have h2 := (hextable_roundtrip (v % 16) (by omega)).2
    have hlt : acc.length < cap := by simp only [List.length_cons] at hlen; omega
    have hval : v % 256 / 16 * 16 + v % 16 = v := by omega
    rw [toBytes_EncodeToString_cons, hexDecodeLoop, h1, h2]
    simp only [hlt, if_true, hval]
    rw [ih (acc ++ [v]) (fun b hb2 => hb b (List.mem_cons_of_mem _ hb2))
      (by simp only [List.length_append, List.length_cons, List.length_nil] at hlen ⊢; omega)]
    simp

/-- A 32-byte key is read back from its hex encoding. -/
theorem hexDecodeInto_EncodeToString (sk : Bytes) (hlen : sk.length = 32)
    (hb : ∀ b ∈ sk, b < 256) :
    hexDecodeInto 32 (toBytes (EncodeToString sk)) = .ok (sk, none) := by
  simp [hexDecodeInto, hexDecodeLoop_EncodeToString 32 sk [] hb (by simp [hlen]), hlen]

theorem freshBytes_length (E : Env Token) (n t : Nat) : (freshBytes E n t).length = n := by
  simp [freshBytes]

theorem freshBytes_lt (E : Env Token) (n t : Nat) : ∀ b ∈ freshBytes E n t, b < 256 := by
  intro b hb
  simp only [freshBytes, List.mem_map] at hb
  rcases hb with ⟨i, _, rfl⟩
  exact Nat.mod_lt _ (by decide)

namespace Demo

theorem env_onlySizeRejection (limit : Nat) : (env limit).OnlySizeRejection := by
  refine ⟨fun _ _ _ => rfl, fun _ _ _ => rfl, fun _ _ => rfl, fun _ _ => rfl, fun _ _ => rfl,
    fun _ => rfl, ?_⟩
  intro t s u v e h
  simp only [env] at h
  split at h
  · cases h; rfl
  · cases h

theorem env_boxOpens (limit : Nat) : (env limit).BoxOpens := by
  intro message nonce key _ _
  simp [env, boxOpen, boxSeal, tag]

theorem calls_oneSizeClass :
    OneSizeClass (env 70) "svc" (fun key => decide (key = "b")) calls := by
  intro key token data t hmem hm
  simp only [calls, List.mem_cons, Call.put.injEq, List.mem_singleton, reduceCtorEq,
    List.not_mem_nil, or_false] at hmem
  rcases hmem with ⟨rfl, rfl⟩ | ⟨rfl, rfl⟩
  · cases hm
    have h2 : (env 70).setFault t "svc" "a" smallToken = none := rfl
    exact ⟨fun h => absurd h (by decide), fun _ e h => (by rw [h2] at h; cases h)⟩
  · cases hm
    have h2 : (env 70).setFault t "svc" "b" bigToken = some .zkErrSetDataTooBig := rfl
    exact ⟨fun _ h => (by rw [h2] at h; cases h), fun h => absurd h (by decide)⟩

end Demo

/-! ## Claims about `tokenstore.go` -/

/-- C6, as the code has it. When the "-keys" ring rejects the hex-encoded key as too
big (and serialising, the random source and the file write succeed),
`secretBoxFileTokenStore.Put` returns no error and leaves every secret as it was, but
the token file of the slot has been written: it holds the nonce followed by the sealed
token; every other file is as it was. -/
theorem secretBoxFileTokenStore_Put_key_TooBig (E : Env Token) (k : secretBoxFileTokenStore)
    (key : String) (token : Option Token) (w : World) (data : String) (e : ExtErr)
    (hm : E.marshal token = .ok data)
    (hrand : ∀ t, E.randFault t = none)
    (hwrite : ∀ t, E.writeFault t (deriveFileName E k.ringName key) = none)
    (hrej : ∀ t, E.setFault t k.ringName key (EncodeToString (freshBytes E 32 w.clock))
      = some e)
    (hbig : e.isSetDataTooBig = true) :
    (k.Put E key token w).1 = none
      ∧ (k.Put E key token w).2.secrets = w.secrets
      ∧ (k.Put E key token w).2.files (deriveFileName E k.ringName key)
          = some (freshBytes E 24 (w.clock + 1)
              ++ E.secretboxSeal (toBytes data) (freshBytes E 24 (w.clock + 1))
                  (freshBytes E 32 w.clock))
      ∧ ∀ path, path ≠ deriveFileName E k.ringName key →
          (k.Put E key token w).2.files path = w.files path := by
  simp [secretBoxFileTokenStore.Put, keyring.Open, keyring.Ring.Put, zkSet, randReadFull,
    osWriteFile, hm, hrand, hwrite, hrej, hbig, Err.isTooBig]
  intro path hp
  simp [hp]

/-- An instance of C6 as the code has it: with secrets limited to 8 characters, the
put of a token returns no error and leaves a token file behind. -/
theorem secretBoxFileTokenStore_Put_key_TooBig_witness :
    ((⟨"svc-keys"⟩ : secretBoxFileTokenStore).Put (Demo.env 8) "k" (some "tok")
        World.empty).1 = none
      ∧ ((⟨"svc-keys"⟩ : secretBoxFileTokenStore).Put (Demo.env 8) "k" (some "tok")
          World.empty).2.secrets = World.empty.secrets
      ∧ ((⟨"svc-keys"⟩ : secretBoxFileTokenStore).Put (Demo.env 8) "k" (some "tok")
          World.empty).2.files (deriveFileName (Demo.env 8) "svc-keys" "k")
          = some (freshBytes (Demo.env 8) 24 (World.empty.clock + 1)
              ++ (Demo.env 8).secretboxSeal (toBytes "tok")
                  (freshBytes (Demo.env 8) 24 (World.empty.clock + 1))
                  (freshBytes (Demo.env 8) 32 World.empty.clock))
      ∧ ∀ path, path ≠ deriveFileName (Demo.env 8) "svc-keys" "k" →
          ((⟨"svc-keys"⟩ : secretBoxFileTokenStore).Put (Demo.env 8) "k" (some "tok")
            World.empty).2.files path = World.empty.files path :=
  secretBoxFileTokenStore_Put_key_TooBig (Demo.env 8) ⟨"svc-keys"⟩ "k" (some "tok")
    World.empty "tok" .zkErrSetDataTooBig rfl (fun _ => rfl) (fun _ => rfl)
    (fun _ => rfl) rfl

/-- C6 as stated fails: with secrets limited to 8 characters the "-keys" ring rejects
the 64-character key as too big, the put returns no error, and yet the files are not
the same after the call as before it. -/
theorem secretBoxFileTokenStore_Put_key_TooBig_not_noop :
    (Demo.env 8).setFault 3 "svc-keys" "k"
        (EncodeToString (freshBytes (Demo.env 8) 32 0)) = some .zkErrSetDataTooBig
      ∧ ((⟨"svc-keys"⟩ : secretBoxFileTokenStore).Put (Demo.env 8) "k" (some "tok")
          World.empty).1 = none
      ∧ ¬ (((⟨"svc-keys"⟩ : secretBoxFileTokenStore).Put (Demo.env 8) "k" (some "tok")
            World.empty).2.files = World.empty.files) := by
  refine ⟨by decide, by decide, ?_⟩
  intro h
  have h2 := congrFun h "token_cdd7e1ebf5ff09131d27313b454f5963.bin"
  revert h2
  decide


/-- C8. `deriveFileName(namespace, name)` is `"token_"`, then the lower-case hex encoding of
the first 16 bytes of the SHA-256 digest of `namespace + "-" + name`, then `".bin"`; it
has the form `token_[0-9a-f]{32}.bin`, hence 42 characters. Being a function of the
two names (and of the digest function) only, it depends on no state. -/
theorem deriveFileName_form (E : Env Token) (ns name : String) :
    deriveFileName E ns name
        = "token_" ++ EncodeToString ((E.sum256 (toBytes (ns ++ "-" ++ name))).val.take 16)
            ++ ".bin"
      ∧ (∃ h : List Char, h.length = 32
          ∧ (∀ c ∈ h, ('0' ≤ c ∧ c ≤ '9') ∨ ('a' ≤ c ∧ c ≤ 'f'))
          ∧ deriveFileName E ns name = "token_" ++ String.mk h ++ ".bin")
      ∧ (deriveFileName E ns name).length = 42 := by
  have hlen : ((E.sum256 (toBytes (ns ++ "-" ++ name))).val.take 16).length = 16 := by
    rw [List.length_take, (E.sum256 _).property]; rfl
  refine ⟨rfl, ⟨_, ?_, flatMap_hexOfByte_class _, rfl⟩, ?_⟩
  · rw [flatMap_hexOfByte_length, hlen]
  · simp only [deriveFileName, EncodeToString, String.length_append, String.length_mk,
      flatMap_hexOfByte_length, hlen]
    rfl

/-- C7. The error returned by `KeyringTokenStore.Put` never is, and never wraps,
`keyring.ErrTooBig`, whatever the collaborators do; when the primary ring rejects the
serialised token as too big the call is answered by the file store, and any other error
of the ring is returned to the caller, wrapped. -/
theorem KeyringTokenStore_Put_never_TooBig (E : Env Token) (k : KeyringTokenStore)
    (key : String) (token : Option Token) (w : World) :
    (∀ err, (k.Put E key token w).1 = some err → err.isTooBig = false)
      ∧ (∀ data e, E.marshal token = .ok data →
          E.setFault w.clock k.serviceName key data = some e →
          (e.isSetDataTooBig = true →
            k.Put E key token w = k.fileTokenStore.Put E key token w.tick)
          ∧ (e.isSetDataTooBig = false →
            k.Put E key token w
              = (some (.wrap "failed to store token for %s: %w" [k.serviceName] (.ext e)),
                  w.tick))) := by
  constructor
  · intro err herr
    have hfile : ∀ w1 err, (k.fileTokenStore.Put E key token w1).1 = some err →
        err.isTooBig = false := by
      intro w1 err h
      simp only [secretBoxFileTokenStore.Put, keyring.Open] at h
      split at h
      · cases h; rfl
      · split at h
        · cases h; rfl
        · split at h
          · cases h; rfl
          · split at h
            · cases h; rfl
            · split at h
              · cases h
              · split at h
                · cases h
                · rename_i hnot
                  cases h
                  simpa [Err.isTooBig] using hnot
    simp only [KeyringTokenStore.Put, keyring.Open] at herr
    split at herr
    · cases herr; rfl
    · split at herr
      · cases herr
      · split at herr
        · exact hfile _ _ herr
        · rename_i hnot
          cases herr
          simpa [Err.isTooBig] using hnot
  · intro data e hm hf
    constructor
    · intro hbig
      simp [KeyringTokenStore.Put, keyring.Open, keyring.Ring.Put, zkSet, hm, hf, hbig,
        Err.isTooBig]
    · intro hbig
      simp [KeyringTokenStore.Put, keyring.Open, keyring.Ring.Put, zkSet, hm, hf, hbig,
        Err.isTooBig]

/-- What `cleanupKey` leaves behind when the two deletions are not refused: no entry
under `key` in the ring and no token file. -/
theorem cleanupKey_purges (E : Env Token) (k : secretBoxFileTokenStore) (key : String)
    (w : World)
    (hdel : ∀ t, E.deleteFault t k.ringName key = none)
    (hrem : ∀ t, E.removeFault t (deriveFileName E k.ringName key) = none) :
    (k.cleanupKey E key w).secrets k.ringName key = none
      ∧ (k.cleanupKey E key w).files (deriveFileName E k.ringName key) = none := by
  simp only [secretBoxFileTokenStore.cleanupKey, keyring.Open, keyring.Ring.Put, zkDelete,
    osRemove, hdel, hrem]
  cases hs : w.secrets k.ringName key <;> cases hf : w.files (deriveFileName E k.ringName key)
    <;> simp [hs, hf]

/-- With no entry under `key` in its ring, the file store reports no token and no error. -/
theorem secretBoxFileTokenStore_Get_absent (E : Env Token) (k : secretBoxFileTokenStore)
    (key : String) (w : World)
    (hget : E.getFault w.clock k.ringName key = none)
    (habs : w.secrets k.ringName key = none) :
    (k.Get E key w).1 = .ret none none := by
  simp [secretBoxFileTokenStore.Get, keyring.Open, keyring.Ring.Get, zkGet, hget, habs,
    ExtErr.isNotFound, Err.isNotFound]

/-- C3, as the code has it. When the "-keys" ring holds a valid key under `key` and the
token file (of at least 24 bytes) fails authenticated decryption,
`secretBoxFileTokenStore.Get` returns a nil token together with the error
"cannot decrypt token file". -/
theorem secretBoxFileTokenStore_Get_decrypt_failure (E : Env Token)
    (k : secretBoxFileTokenStore) (key : String) (w : World) (sk enc : Bytes)
    (hget : E.getFault w.clock k.ringName key = none)
    (hsk : sk.length = 32) (hb : ∀ b ∈ sk, b < 256)
    (hring : w.secrets k.ringName key = some (EncodeToString sk))
    (hread : E.readFault (w.clock + 1) (deriveFileName E k.ringName key) = none)
    (hfile : w.files (deriveFileName E k.ringName key) = some enc)
    (hlen : 24 ≤ enc.length)
    (hopen : E.secretboxOpen (enc.drop 24) (enc.take 24) sk = none) :
    (k.Get E key w).1 = .ret none (some (.msg "cannot decrypt token file")) := by
  have hnot : ¬ enc.length < 24 := by omega
  simp [secretBoxFileTokenStore.Get, keyring.Open, keyring.Ring.Get, zkGet, osReadFile, hget,
    hring, hexDecodeInto_EncodeToString sk hsk hb, hread, hfile, hnot, hopen]

/-- C4, as the code has it. When `secretBoxFileTokenStore.Get` has read a key from the
"-keys" ring and then finds the token file unreadable (`os.ReadFile` fails) or, the file
having at least 24 bytes, cannot decrypt it (`secretbox.Open` reports failure), and the
backend refuses neither deletion, then after the call the ring has no entry under `key`
and the token file does not exist; and a following `Get` returns no token and no error,
provided that the lookups of `key` in the ring fail for no other reason than absence. -/
theorem secretBoxFileTokenStore_Get_self_heal (E : Env Token) (k : secretBoxFileTokenStore)
    (key : String) (w : World) (secret : String) (sk : Bytes)
    (hget : ∀ t, E.getFault t k.ringName key = none)
    (hring : w.secrets k.ringName key = some secret)
    (hkey : hexDecodeInto 32 (toBytes secret) = .ok (sk, none))
    (hbad : (∃ e, (osReadFile E (deriveFileName E k.ringName key) w.tick).1 = .error e)
      ∨ ∃ enc, (osReadFile E (deriveFileName E k.ringName key) w.tick).1 = .ok enc
          ∧ 24 ≤ enc.length ∧ E.secretboxOpen (enc.drop 24) (enc.take 24) sk = none)
    (hdel : ∀ t, E.deleteFault t k.ringName key = none)
    (hrem : ∀ t, E.removeFault t (deriveFileName E k.ringName key) = none) :
    (k.Get E key w).2.secrets k.ringName key = none
      ∧ (k.Get E key w).2.files (deriveFileName E k.ringName key) = none
      ∧ (k.Get E key (k.Get E key w).2).1 = .ret none none := by
  have hw : (k.Get E key w).2
      = k.cleanupKey E key (osReadFile E (deriveFileName E k.ringName key) w.tick).2 := by
    rcases hbad with ⟨e, he⟩ | ⟨enc, he, hlen, hopen⟩
    · simp [secretBoxFileTokenStore.Get, keyring.Open, keyring.Ring.Get, zkGet, hget, hring,
        hkey, he]
    · have hnot : ¬ enc.length < 24 := by omega
      simp [secretBoxFileTokenStore.Get, keyring.Open, keyring.Ring.Get, zkGet, hget, hring,
        hkey, he, hnot, hopen]
  have hp := cleanupKey_purges E k key
    (osReadFile E (deriveFileName E k.ringName key) w.tick).2 hdel hrem
  rw [hw]
  exact ⟨hp.1, hp.2, secretBoxFileTokenStore_Get_absent E k key _ (hget _) hp.1⟩

/-- An instance of C7: with secrets limited to 8 characters, a put of a longer token is
answered by the file store. -/
theorem KeyringTokenStore_Put_never_TooBig_witness :
    (NewKeyringTokenStore "svc").Put (Demo.env 8) "k" (some "0123456789") World.empty
      = (NewKeyringTokenStore "svc").fileTokenStore.Put (Demo.env 8) "k" (some "0123456789")
          World.empty.tick :=
  ((KeyringTokenStore_Put_never_TooBig (Demo.env 8) (NewKeyringTokenStore "svc") "k"
    (some "0123456789") World.empty).2 "0123456789" .zkErrSetDataTooBig rfl rfl).1 rfl

/-- An instance of C3 as the code has it: after one bit of the ciphertext is flipped,
`Get` returns the error "cannot decrypt token file". -/
theorem secretBoxFileTokenStore_Get_decrypt_failure_witness :
    (Demo.fileStore.Get (Demo.env 100) "k" Demo.tampered).1
      = .ret none (some (.msg "cannot decrypt token file")) :=
  secretBoxFileTokenStore_Get_decrypt_failure (Demo.env 100) Demo.fileStore "k" Demo.tampered
    (freshBytes (Demo.env 100) 32 0)
    ((Demo.tampered.files (deriveFileName (Demo.env 100) "svc-keys" "k")).getD [])
    rfl (by decide) (by decide) (by decide) rfl (by decide) (by decide) (by decide)

/-- C3 as stated fails. The file store puts a token, which it then reads back; after
one bit of the ciphertext is flipped the ring still holds the key and the file no
longer decrypts, and `Get` does not return "no token, no error": it returns an error. -/
theorem secretBoxFileTokenStore_Get_corrupt_is_error :
    (Demo.fileStore.Get (Demo.env 100) "k" Demo.stored).1 = .ret (some Demo.smallToken) none
      ∧ Demo.tampered.secrets "svc-keys" "k"
          = some (EncodeToString (freshBytes (Demo.env 100) 32 0))
      ∧ (Demo.tampered.files (deriveFileName (Demo.env 100) "svc-keys" "k")).map
          (fun enc => (Demo.env 100).secretboxOpen (enc.drop 24) (enc.take 24)
            (freshBytes (Demo.env 100) 32 0)) = some none
      ∧ (Demo.fileStore.Get (Demo.env 100) "k" Demo.tampered).1 ≠ .ret none none
      ∧ (Demo.fileStore.Get (Demo.env 100) "k" Demo.tampered).1
          = .ret none (some (.msg "cannot decrypt token file")) := by
  refine ⟨by decide, by decide, by decide, by decide, by decide⟩

/-- An instance of C4: a key whose token file is missing is purged by `Get`. -/
theorem secretBoxFileTokenStore_Get_self_heal_witness :
    (Demo.fileStore.Get (Demo.env 100) "k" Demo.orphanKey).2.secrets
        Demo.fileStore.ringName "k" = none
      ∧ (Demo.fileStore.Get (Demo.env 100) "k" Demo.orphanKey).2.files
          (deriveFileName (Demo.env 100) Demo.fileStore.ringName "k") = none
      ∧ (Demo.fileStore.Get (Demo.env 100) "k"
          (Demo.fileStore.Get (Demo.env 100) "k" Demo.orphanKey).2).1 = .ret none none :=
  secretBoxFileTokenStore_Get_self_heal (Demo.env 100) Demo.fileStore "k" Demo.orphanKey
    (EncodeToString (List.replicate 32 0)) (List.replicate 32 0)
    (fun _ => rfl) (by decide) rfl (Or.inl ⟨_, rfl⟩) (fun _ => rfl) (fun _ => rfl)

/-- C4 as stated fails. (1) The "-keys" ring holds a key under `k` and the token file is
missing, so `Get` finds it unreadable; no deletion is refused, and after the call the
entry and the file are gone; but the store is locked by then, and the following `Get`
returns an error, not "no token, no error". (2) With a valid key and a token file of 3
bytes, which cannot be decrypted, `Get` panics before any cleanup: the entry and the file
are still there after the call. -/
theorem secretBoxFileTokenStore_Get_self_heal_not_as_stated :
    ((Demo.fileStore.Get Demo.lockedEnv "k" Demo.orphanKey).1
          = .ret none (some (.wrap "failed to read token file %q: %w"
              [deriveFileName Demo.lockedEnv "svc-keys" "k"]
              (.ext (.other "no such file or directory"))))
        ∧ (Demo.fileStore.Get Demo.lockedEnv "k" Demo.orphanKey).2.secrets "svc-keys" "k"
          = none
        ∧ (Demo.fileStore.Get Demo.lockedEnv "k" Demo.orphanKey).2.files
          (deriveFileName Demo.lockedEnv "svc-keys" "k") = none
        ∧ (Demo.fileStore.Get Demo.lockedEnv "k"
            (Demo.fileStore.Get Demo.lockedEnv "k" Demo.orphanKey).2).1
          = .ret none (some (.wrap "cannot read %s token for %q: %w" ["svc-keys", "k"]
              (.ext (.other "keyring locked"))))
        ∧ (Demo.fileStore.Get Demo.lockedEnv "k"
            (Demo.fileStore.Get Demo.lockedEnv "k" Demo.orphanKey).2).1 ≠ .ret none none)
      ∧ ((Demo.fileStore.Get (Demo.env 100) "k" Demo.shortFile).1
          = .panic .sliceBoundsOutOfRange
        ∧ ((Demo.fileStore.Get (Demo.env 100) "k" Demo.shortFile).2.secrets "svc-keys"
            "k").isSome = true
        ∧ ((Demo.fileStore.Get (Demo.env 100) "k" Demo.shortFile).2.files
            (deriveFileName (Demo.env 100) "svc-keys" "k")).isSome = true) := by
  refine ⟨⟨by decide, by decide, by decide, by decide, by decide⟩,
    by decide, by decide, by decide⟩

/-- C1, as the code has it. Let the collaborators fail by size rejection only, let the
serialised token be read back as the token, and let the "-keys" ring accept the
hex-encoded key of this put. Then `Put(key, T)` returns no error and the following
`Get(key)` returns `T` with no error, when `T` fits in the primary ring and also when it
is rejected as too big, provided that in the latter case the primary ring holds no
entry under `key` beforehand. -/
theorem KeyringTokenStore_Put_Get (E : Env Token) (svc key : String) (T : Token) (w : World)
    (data : String)
    (hE : E.OnlySizeRejection) (hbox : E.BoxOpens)
    (hm : E.marshal (some T) = .ok data)
    (hu : E.unmarshal (toBytes data) = .ok T)
    (hkey : ∀ t, E.setFault t (svc ++ "-keys") key
      (EncodeToString (freshBytes E 32 (w.clock + 1))) = none)
    (hstale : E.setFault w.clock svc key data ≠ none → w.secrets svc key = none) :
    ((NewKeyringTokenStore svc).Put E key (some T) w).1 = none
      ∧ ((NewKeyringTokenStore svc).Get E key
          ((NewKeyringTokenStore svc).Put E key (some T) w).2).1 = .ret (some T) none := by
  obtain ⟨hget, -, hwrite, hread, -, hrand, hset⟩ := hE
  cases hf : E.setFault w.clock svc key data with
  | none =>
    simp [NewKeyringTokenStore, KeyringTokenStore.Put, KeyringTokenStore.Get, keyring.Open,
      keyring.Ring.Put, keyring.Ring.Get, zkSet, zkGet, hm, hf, hget, hu]
  | some e =>
    have hbig := hset _ _ _ _ _ hf
    have habs : w.secrets svc key = none := hstale (by simp [hf])
    have hne : ¬ svc = svc ++ "-keys" := ne_append_keys svc
    have hdec := hexDecodeInto_EncodeToString (freshBytes E 32 (w.clock + 1))
      (freshBytes_length E 32 _) (freshBytes_lt E 32 _)
    have hopen := hbox (toBytes data) (freshBytes E 24 (w.clock + 1 + 1))
      (freshBytes E 32 (w.clock + 1)) (freshBytes_length E 24 _) (freshBytes_length E 32 _)
    have hl : (freshBytes E 24 (w.clock + 1 + 1)).length = 24 := freshBytes_length E 24 _
    simp [NewKeyringTokenStore, KeyringTokenStore.Put, KeyringTokenStore.Get,
      secretBoxFileTokenStore.Put, secretBoxFileTokenStore.Get, keyring.Open,
      keyring.Ring.Put, keyring.Ring.Get, zkSet, zkGet, randReadFull, osWriteFile, osReadFile,
      hm, hf, hbig, hget, hwrite, hread, hrand, hkey, hu, habs, hne, hdec, hopen, hl,
      Err.isTooBig, Err.isNotFound, ExtErr.isNotFound]

/-- An instance of C1 as the code has it, on the path through the encrypted file: with
secrets limited to 70 characters, a token of 80 characters is put and read back. -/
theorem KeyringTokenStore_Put_Get_witness :
    ((NewKeyringTokenStore "svc").Put (Demo.env 70) "k" (some Demo.bigToken) World.empty).1
        = none
      ∧ ((NewKeyringTokenStore "svc").Get (Demo.env 70) "k"
          ((NewKeyringTokenStore "svc").Put (Demo.env 70) "k" (some Demo.bigToken)
            World.empty).2).1 = .ret (some Demo.bigToken) none :=
  KeyringTokenStore_Put_Get (Demo.env 70) "svc" "k" Demo.bigToken World.empty Demo.bigToken
    (Demo.env_onlySizeRejection 70) (Demo.env_boxOpens 70) rfl rfl (fun _ => rfl)
    (fun _ => rfl)

/-- C1 as stated fails. With secrets limited to 8 characters and no prior state, the
token of 10 characters is rejected by the primary ring as too big and so is the
64-character key by the "-keys" ring: `Put` returns no error, and the following `Get`
returns no token. -/
theorem KeyringTokenStore_Put_Get_lost :
    ((NewKeyringTokenStore "svc").Put (Demo.env 8) "k" (some "0123456789") World.empty).1
        = none
      ∧ ((NewKeyringTokenStore "svc").Get (Demo.env 8) "k"
          ((NewKeyringTokenStore "svc").Put (Demo.env 8) "k" (some "0123456789")
            World.empty).2).1 = .ret none none
      ∧ ((NewKeyringTokenStore "svc").Get (Demo.env 8) "k"
          ((NewKeyringTokenStore "svc").Put (Demo.env 8) "k" (some "0123456789")
            World.empty).2).1 ≠ .ret (some "0123456789") none := by
  refine ⟨by decide, by decide, by decide⟩

/-- C2 fails on the code. With secrets limited to 70 characters and no prior state,
`Put(k, T1)` with a short `T1`, then `Put(k, T2)` with `T2` of 80 characters (both
returning no error), then `Get(k)`: the result is `T1`, not `T2`. -/
theorem KeyringTokenStore_Put_Put_Get_stale :
    ((NewKeyringTokenStore "svc").Put (Demo.env 70) "k" (some Demo.smallToken)
        World.empty).1 = none
      ∧ ((NewKeyringTokenStore "svc").Put (Demo.env 70) "k" (some Demo.bigToken)
          ((NewKeyringTokenStore "svc").Put (Demo.env 70) "k" (some Demo.smallToken)
            World.empty).2).1 = none
      ∧ ((NewKeyringTokenStore "svc").Get (Demo.env 70) "k"
          ((NewKeyringTokenStore "svc").Put (Demo.env 70) "k" (some Demo.bigToken)
            ((NewKeyringTokenStore "svc").Put (Demo.env 70) "k" (some Demo.smallToken)
              World.empty).2).2).1 = .ret (some Demo.smallToken) none
      ∧ Demo.smallToken ≠ Demo.bigToken := by
  refine ⟨by decide, by decide, by decide, by decide⟩

/-! ### Which secrets a call can create -/

theorem zkGet_world (E : Env Token) (s u : String) (w : World) :
    (zkGet E s u w).2 = w.tick := by
  simp only [zkGet]; split <;> (try split) <;> rfl

theorem osReadFile_world (E : Env Token) (p : String) (w : World) :
    (osReadFile E p w).2 = w.tick := by
  simp only [osReadFile]; split <;> (try split) <;> rfl

theorem osRemove_secrets (E : Env Token) (p : String) (w : World) :
    (osRemove E p w).2.secrets = w.secrets := by
  simp only [osRemove]; split <;> (try split) <;> rfl

theorem zkDelete_secrets (E : Env Token) (s u : String) (w : World) (s1 u1 : String) :
    ((zkDelete E s u w).2.secrets s1 u1).isSome = true → (w.secrets s1 u1).isSome = true := by
  simp only [zkDelete]
  split
  · exact id
  · split
    · exact id
    · simp only [World.tick_secrets, World.setSecret_secrets]
      split
      · intro h; cases h
      · exact id

theorem cleanupKey_secrets (E : Env Token) (k : secretBoxFileTokenStore) (key : String)
    (w : World) (s u : String) :
    ((k.cleanupKey E key w).secrets s u).isSome = true → (w.secrets s u).isSome = true := by
  simp only [secretBoxFileTokenStore.cleanupKey, keyring.Open, keyring.Ring.Put,
    osRemove_secrets]
  exact zkDelete_secrets E k.ringName key w s u

theorem Ring_Get_world (E : Env Token) (r : keyring.Ring) (name : String) (w : World) :
    (r.Get E name w).2 = w.tick := by
  simp only [keyring.Ring.Get]
  split
  · split <;> exact zkGet_world E _ _ w
  · exact zkGet_world E _ _ w

/-- The state after `secretBoxFileTokenStore.Get`: one or two outside calls were made,
possibly followed by `cleanupKey`. -/
theorem secretBoxFileTokenStore_Get_world (E : Env Token) (k : secretBoxFileTokenStore)
    (key : String) (w : World) :
    (k.Get E key w).2 = w.tick ∨ (k.Get E key w).2 = k.cleanupKey E key w.tick
      ∨ (k.Get E key w).2 = w.tick.tick ∨ (k.Get E key w).2 = k.cleanupKey E key w.tick.tick := by
  simp only [secretBoxFileTokenStore.Get, keyring.Open]
  split
  · split
    · exact Or.inl (Ring_Get_world E _ _ w)
    · right; left; simp only [Ring_Get_world]
  · split
    · exact Or.inl (Ring_Get_world E _ _ w)
    · exact Or.inl (Ring_Get_world E _ _ w)
    · split
      · right; right; right; simp only [Ring_Get_world, osReadFile_world]
      · split
        · right; right; left; simp only [Ring_Get_world, osReadFile_world]
        · split
          · right; right; right; simp only [Ring_Get_world, osReadFile_world]
          · split
            · right; right; right; simp only [Ring_Get_world, osReadFile_world]
            · right; right; left; simp only [Ring_Get_world, osReadFile_world]

theorem secretBoxFileTokenStore_Get_secrets (E : Env Token) (k : secretBoxFileTokenStore)
    (key : String) (w : World) (s u : String) :
    ((k.Get E key w).2.secrets s u).isSome = true → (w.secrets s u).isSome = true := by
  rcases secretBoxFileTokenStore_Get_world E k key w with h | h | h | h <;> rw [h]
  · exact id
  · exact cleanupKey_secrets E k key w.tick s u
  · exact id
  · exact cleanupKey_secrets E k key w.tick.tick s u

theorem KeyringTokenStore_Get_secrets (E : Env Token) (k : KeyringTokenStore)
    (key : String) (w : World) (s u : String) :
    ((k.Get E key w).2.secrets s u).isSome = true → (w.secrets s u).isSome = true := by
  simp only [KeyringTokenStore.Get, keyring.Open]
  split
  · split
    · intro h
      have h2 := secretBoxFileTokenStore_Get_secrets E k.fileTokenStore key _ s u h
      rwa [Ring_Get_world] at h2
    · simp only [Ring_Get_world]; exact id
  · split <;> simp only [Ring_Get_world] <;> exact id

theorem randReadFull_world (E : Env Token) (n : Nat) (w : World) :
    (randReadFull E n w).2 = w.tick := by
  simp only [randReadFull]; split <;> rfl

theorem osWriteFile_secrets (E : Env Token) (p : String) (d : Bytes) (w : World) :
    (osWriteFile E p d w).2.secrets = w.secrets := by
  simp only [osWriteFile]; split <;> rfl

theorem Ring_Put_some_secrets (E : Env Token) (r : keyring.Ring) (name : String)
    (it : keyring.Item) (w : World) (s u : String) :
    ((r.Put E name (some it) w).2.secrets s u).isSome = true →
      (w.secrets s u).isSome = true
        ∨ (s = r.serviceName ∧ u = name
            ∧ E.setFault w.clock r.serviceName name it.Secret = none) := by
  simp only [keyring.Ring.Put, zkSet]
  cases hf : E.setFault w.clock r.serviceName name it.Secret with
  | some e =>
    simp only
    split <;> exact Or.inl
  | none =>
    simp only [World.tick_secrets, World.setSecret_secrets]
    split
    · rename_i h; intro _; exact Or.inr ⟨h.1, h.2, trivial⟩
    · exact Or.inl

theorem secretBoxFileTokenStore_Put_secrets (E : Env Token) (k : secretBoxFileTokenStore)
    (key : String) (token : Option Token) (w : World) (s u : String) :
    ((k.Put E key token w).2.secrets s u).isSome = true →
      (w.secrets s u).isSome = true ∨ (s = k.ringName ∧ u = key) := by
  have hput : ∀ (it : keyring.Item) (d : Bytes),
      (((⟨k.ringName⟩ : keyring.Ring).Put E key (some it)
        (osWriteFile E (deriveFileName E k.ringName key) d w.tick.tick).2).2.secrets s u).isSome
          = true →
        (w.secrets s u).isSome = true ∨ (s = k.ringName ∧ u = key) := by
    intro it d h
    rcases Ring_Put_some_secrets E _ key it _ s u h with h1 | ⟨h1, h2, -⟩
    · rw [osWriteFile_secrets] at h1; exact Or.inl h1
    · exact Or.inr ⟨h1, h2⟩
  simp only [secretBoxFileTokenStore.Put, keyring.Open, randReadFull_world]
  split
  · exact Or.inl
  · split
    · exact Or.inl
    · split
      · exact Or.inl
      · split
        · rw [osWriteFile_secrets]; exact Or.inl
        · split
          · exact hput _ _
          · split <;> exact hput _ _

/-- A put creates at most one secret: under `key` in the primary ring when the ring
accepts the serialised token, under `key` in the "-keys" ring when the primary ring
rejects it as too big. -/
theorem KeyringTokenStore_Put_secrets (E : Env Token) (k : KeyringTokenStore)
    (key : String) (token : Option Token) (w : World) (s u : String) :
    ((k.Put E key token w).2.secrets s u).isSome = true →
      (w.secrets s u).isSome = true
        ∨ (s = k.serviceName ∧ u = key
            ∧ ∃ data, E.marshal token = .ok data
                ∧ E.setFault w.clock k.serviceName key data = none)
        ∨ (s = k.fileTokenStore.ringName ∧ u = key
            ∧ ∃ data e, E.marshal token = .ok data
                ∧ E.setFault w.clock k.serviceName key data = some e
                ∧ e.isSetDataTooBig = true) := by
  simp only [KeyringTokenStore.Put, keyring.Open]
  cases hm : E.marshal token with
  | error e => exact Or.inl
  | ok data =>
    simp only
    cases hf : E.setFault w.clock k.serviceName key data with
    | none =>
      simp only [keyring.Ring.Put, zkSet, hf, World.tick_secrets, World.setSecret_secrets]
      split
      · rename_i h; intro _; exact Or.inr (Or.inl ⟨h.1, h.2, data, rfl, hf⟩)
      · exact Or.inl
    | some e =>
      cases hb : e.isSetDataTooBig with
      | false =>
        simp only [keyring.Ring.Put, zkSet, hf, hb, Err.isTooBig]
        exact Or.inl
      | true =>
        simp only [keyring.Ring.Put, zkSet, hf, hb, Err.isTooBig]
        intro h
        rcases secretBoxFileTokenStore_Put_secrets E k.fileTokenStore key token _ s u h
          with h1 | ⟨h1, h2⟩
        · exact Or.inl h1
        · exact Or.inr (Or.inr ⟨h1, h2, data, e, rfl, hf, hb⟩)

theorem SizeClassInv_run (E : Env Token) (svc : String) (big : String → Bool)
    (c : Call Token) (w : World)
    (hc : ∀ key token data t, c = Call.put key token → E.marshal token = .ok data →
      (big key = true → E.setFault t svc key data ≠ none)
        ∧ (big key = false → ∀ e, E.setFault t svc key data = some e →
            e.isSetDataTooBig = false))
    (hinv : SizeClassInv svc big w) :
    SizeClassInv svc big (c.run E (NewKeyringTokenStore svc) w) := by
  have hne : svc ≠ svc ++ "-keys" := ne_append_keys svc
  cases c with
  | get key =>
    intro key1
    exact ⟨fun h => (hinv key1).1 (KeyringTokenStore_Get_secrets E _ key w _ _ h),
      fun h => (hinv key1).2 (KeyringTokenStore_Get_secrets E _ key w _ _ h)⟩
  | put key token =>
    intro key1
    constructor
    · intro h
      rcases KeyringTokenStore_Put_secrets E (NewKeyringTokenStore svc) key token w _ _ h
        with h1 | ⟨-, h2, data, hm, hf⟩ | ⟨h1, -⟩
      · exact (hinv key1).1 h1
      · subst h2
        cases hb : big key1 with
        | false => rfl
        | true => exact absurd hf ((hc key1 token data w.clock rfl hm).1 hb)
      · exact absurd h1 hne
    · intro h
      rcases KeyringTokenStore_Put_secrets E (NewKeyringTokenStore svc) key token w _ _ h
        with h1 | ⟨h1, -⟩ | ⟨-, h2, data, e, hm, hf, he⟩
      · exact (hinv key1).2 h1
      · exact absurd h1.symm hne
      · subst h2
        cases hb : big key1 with
        | true => rfl
        | false =>
          have := (hc key1 token data w.clock rfl hm).2 hb e hf
          rw [he] at this
          cases this

theorem SizeClassInv_runCalls (E : Env Token) (svc : String) (big : String → Bool)
    (calls : List (Call Token)) :
    ∀ w, OneSizeClass E svc big calls → SizeClassInv svc big w →
      SizeClassInv svc big (runCalls E (NewKeyringTokenStore svc) calls w) := by
  induction calls with
  | nil => intro w _ hinv; exact hinv
  | cons c cs ih =>
    intro w hcalls hinv
    refine ih _ (fun key token data t hmem => hcalls key token data t
      (List.mem_cons_of_mem _ hmem)) (SizeClassInv_run E svc big c w ?_ hinv)
    intro key token data t hc
    exact hcalls key token data t (hc ▸ List.mem_cons_self _ _)

/-- C5, as the code has it. In every state reached from the empty state by `Put` and
`Get` calls in which every key has one size class (the tokens put under it are never
stored by the primary ring, or never rejected by it as too big), no key has both a token
in the primary ring and a key in the "-keys" ring, with or without its token file; so no
slot is at once `StoredInRing` and `StoredInFile`. -/
theorem tiers_exclusive (E : Env Token) (svc : String) (big : String → Bool)
    (calls : List (Call Token)) (hcalls : OneSizeClass E svc big calls) (key : String) :
    ¬ (StoredInRing (NewKeyringTokenStore svc)
          (runCalls E (NewKeyringTokenStore svc) calls World.empty) key
        ∧ KeyInKeysRing (NewKeyringTokenStore svc)
          (runCalls E (NewKeyringTokenStore svc) calls World.empty) key)
      ∧ ¬ (StoredInRing (NewKeyringTokenStore svc)
          (runCalls E (NewKeyringTokenStore svc) calls World.empty) key
        ∧ StoredInFile E (NewKeyringTokenStore svc)
          (runCalls E (NewKeyringTokenStore svc) calls World.empty) key) := by
  have hempty : SizeClassInv svc big World.empty := by
    intro key1
    constructor <;> intro h <;> cases h
  have hinv := SizeClassInv_runCalls E svc big calls World.empty hcalls hempty
  have hkeys : ¬ (StoredInRing (NewKeyringTokenStore svc)
        (runCalls E (NewKeyringTokenStore svc) calls World.empty) key
      ∧ KeyInKeysRing (NewKeyringTokenStore svc)
        (runCalls E (NewKeyringTokenStore svc) calls World.empty) key) := by
    rintro ⟨h1, h2⟩
    have a := (hinv key).1 h1
    have b := (hinv key).2 h2
    rw [a] at b
    cases b
  exact ⟨hkeys, fun h => hkeys ⟨h.1, h.2.1⟩⟩

/-- An instance of C5 as the code has it: a small token under `a` and a big one under
`b` leave `b` in one tier only. -/
theorem tiers_exclusive_witness :
    ¬ (StoredInRing (NewKeyringTokenStore "svc")
          (runCalls (Demo.env 70) (NewKeyringTokenStore "svc") Demo.calls World.empty) "b"
        ∧ KeyInKeysRing (NewKeyringTokenStore "svc")
          (runCalls (Demo.env 70) (NewKeyringTokenStore "svc") Demo.calls World.empty) "b")
      ∧ ¬ (StoredInRing (NewKeyringTokenStore "svc")
          (runCalls (Demo.env 70) (NewKeyringTokenStore "svc") Demo.calls World.empty) "b"
        ∧ StoredInFile (Demo.env 70) (NewKeyringTokenStore "svc")
          (runCalls (Demo.env 70) (NewKeyringTokenStore "svc") Demo.calls World.empty) "b") :=
  tiers_exclusive (Demo.env 70) "svc" (fun key => decide (key = "b")) Demo.calls
    Demo.calls_oneSizeClass "b"

/-- C5 as stated fails. With secrets limited to 70 characters, `Put(k, T2)` with `T2` of
80 characters followed by `Put(k, T1)` with a short `T1` reaches, from the empty state,
a state in which the primary ring holds a token under `k` while the "-keys" ring holds
a key under `k` and the encrypted token file is present. -/
theorem tiers_not_exclusive :
    StoredInRing (NewKeyringTokenStore "svc")
        (runCalls (Demo.env 70) (NewKeyringTokenStore "svc")
          [.put "k" (some Demo.bigToken), .put "k" (some Demo.smallToken)] World.empty) "k"
      ∧ StoredInFile (Demo.env 70) (NewKeyringTokenStore "svc")
        (runCalls (Demo.env 70) (NewKeyringTokenStore "svc")
          [.put "k" (some Demo.bigToken), .put "k" (some Demo.smallToken)] World.empty) "k" := by
  unfold StoredInRing StoredInFile
  decide

/-! ## Claims about `set.go` -/

namespace set

theorem foldl_append_singleton {α β : Type} (f : α → β) (l : List α) (acc : List β) :
    l.foldl (fun result e => result ++ [f e]) acc = acc ++ l.map f := by
  induction l generalizing acc with
  | nil => simp
  | cons a t ih => simp [ih]

theorem ToSlice_perm {T : Type} (ord : RangeOrder (T × Unit)) (s : Set T) :
    (s.ToSlice ord).Perm s.keys := by
  simp only [Set.ToSlice, Set.keys, foldl_append_singleton, List.nil_append]
  exact (ord.perm _).map _

theorem Add_of_mem {T : Type} [DecidableEq T] (s : Set T) (x : T) (h : x ∈ s.keys) :
    s.Add x = s := by
  obtain ⟨⟨entries⟩⟩ := s
  simp only [Set.keys, List.mem_map] at h
  obtain ⟨e, he, rfl⟩ := h
  have hany : entries.any (fun e1 => decide (e1.1 = e.1)) = true :=
    List.any_eq_true.2 ⟨e, he, by simp⟩
  simp only [Set.Add, GoMap.assign, hany, if_true]
  congr 2
  conv_rhs => rw [← List.map_id entries]
  apply List.map_congr_left
  intro a _
  split
  · rename_i h1; cases a; simp_all
  · rfl

theorem Add_keys_of_not_mem {T : Type} [DecidableEq T] (s : Set T) (x : T) (h : x ∉ s.keys) :
    (s.Add x).keys = s.keys ++ [x] := by
  obtain ⟨⟨entries⟩⟩ := s
  have hany : ¬ entries.any (fun e1 => decide (e1.1 = x)) = true := by
    intro hc
    obtain ⟨e, he, hx⟩ := List.any_eq_true.1 hc
    exact h (List.mem_map.2 ⟨e, he, by simpa using hx⟩)
  simp [Set.Add, GoMap.assign, hany, Set.keys]

theorem foldl_Add_keys {T : Type} [DecidableEq T] (items : List T) :
    ∀ s : Set T, s.keys.Nodup →
      (items.foldl Set.Add s).keys.Nodup
        ∧ ∀ x, x ∈ (items.foldl Set.Add s).keys ↔ x ∈ s.keys ∨ x ∈ items := by
  induction items with
  | nil => intro s hs; simp [hs]
  | cons a t ih =>
    intro s hs
    by_cases ha : a ∈ s.keys
    · have := ih s hs
      simp only [List.foldl_cons, Add_of_mem s a ha]
      refine ⟨this.1, fun x => ?_⟩
      rw [this.2 x, List.mem_cons]
      constructor
      · rintro (h | h)
        · exact Or.inl h
        · exact Or.inr (Or.inr h)
      · rintro (h | h | h)
        · exact Or.inl h
        · exact Or.inl (h ▸ ha)
        · exact Or.inr h
    · have hk := Add_keys_of_not_mem s a ha
      have hnd : (s.Add a).keys.Nodup := by
        rw [hk]; exact List.Nodup.append hs (List.nodup_singleton a) (by simpa using ha)
      have := ih (s.Add a) hnd
      simp only [List.foldl_cons]
      refine ⟨this.1, fun x => ?_⟩
      rw [this.2 x, hk, List.mem_append, List.mem_singleton, List.mem_cons, or_assoc]

/-- C9. For every finite sequence of `Add` calls on a set made by `New`, and whatever
the order in which the map is visited, `ToSlice` returns a slice without duplicates
whose elements are exactly the added elements, so that its length is the number of
distinct elements added; and adding an element that was added before leaves the set as
it is. -/
theorem Set_semantics {T : Type} [DecidableEq T] (ord : RangeOrder (T × Unit))
    (items : List T) :
    ((items.foldl Set.Add New).ToSlice ord).Nodup
      ∧ (∀ x, x ∈ (items.foldl Set.Add New).ToSlice ord ↔ x ∈ items)
      ∧ ((items.foldl Set.Add New).ToSlice ord).length = items.toFinset.card
      ∧ ∀ x, x ∈ items → (items.foldl Set.Add New).Add x = items.foldl Set.Add New := by
  have hk := foldl_Add_keys items (New : Set T) List.nodup_nil
  have hp := ToSlice_perm ord (items.foldl Set.Add New)
  have hmem : ∀ x, x ∈ (items.foldl Set.Add New).keys ↔ x ∈ items := by
    intro x; rw [hk.2 x]; simp [Set.keys, New, GoMap.make]
  refine ⟨hp.nodup_iff.2 hk.1, fun x => (hp.mem_iff).trans (hmem x), ?_, ?_⟩
  · rw [hp.length_eq, ← List.toFinset_card_of_nodup hk.1]
    congr 1
    ext x
    simp [hmem x]
  · intro x hx
    exact Add_of_mem _ x ((hmem x).2 hx)

/-- An instance of C9, the calls of `TestAdd`: after `a`, `b`, `a` the slice has two
elements, and one more `Add` of `a` changes nothing. -/
theorem Set_semantics_witness :
    ((["a", "b", "a"].foldl Set.Add New).ToSlice (Demo.listedOrder _)).length
        = ["a", "b", "a"].toFinset.card
      ∧ (["a", "b", "a"].foldl Set.Add New).Add "a" = ["a", "b", "a"].foldl Set.Add New :=
  ⟨(Set_semantics (Demo.listedOrder _) ["a", "b", "a"]).2.2.1,
    (Set_semantics (Demo.listedOrder _) ["a", "b", "a"]).2.2.2 "a" (by decide)⟩

end set

/-! ## Facts about the matcher -/

theorem isClsRun_cls (p : Char → Bool) : IsClsRun p (Regex.cls p).run := by
  intro pos s caps k
  cases s <;> simp [Regex.run]

theorem repLoop_cls_star (p : Char → Bool) (k : Cont)
    (body : Nat → List Char → Caps → Cont → Option Caps) (hb : IsClsRun p body) :
    ∀ (fuel : Nat) (s : List Char) (pos : Nat) (caps : Caps), s.length ≤ fuel →
      repLoop body fuel 0 none pos s caps k = starCls p k pos s caps := by
  intro fuel
  induction fuel with
  | zero =>
    intro s pos caps h
    cases s with
    | nil => simp [repLoop, starCls]
    | cons c t => simp at h
  | succ n ih =>
    intro s pos caps h
    cases s with
    | nil => simp [repLoop, starCls, hb pos []]
    | cons c t =>
      have ht : t.length ≤ n := by simpa using h
      by_cases hp : p c = true
      · simp [repLoop, starCls, hb pos (c :: t), hp, ih t (pos + 1) caps ht]
      · simp [repLoop, starCls, hb pos (c :: t), hp]

theorem repLoop_cls_plus (p : Char → Bool) (k : Cont)
    (body : Nat → List Char → Caps → Cont → Option Caps) (hb : IsClsRun p body)
    (fuel : Nat) (s : List Char) (pos : Nat) (caps : Caps) (h : s.length + 1 ≤ fuel) :
    repLoop body fuel 1 none pos s caps k = plusCls p k pos s caps := by
  cases fuel with
  | zero => omega
  | succ n =>
    cases s with
    | nil => simp [repLoop, plusCls, hb pos []]
    | cons c t =>
      have ht : t.length ≤ n := by simp at h; omega
      by_cases hp : p c = true
      · simp [repLoop, plusCls, hb pos (c :: t), hp,
          repLoop_cls_star p k body hb n t (pos + 1) caps ht]
        cases starCls p k (pos + 1) t caps <;> rfl
      · simp [repLoop, plusCls, hb pos (c :: t), hp]

theorem repLoop_cls_exact (p : Char → Bool) (k : Cont)
    (body : Nat → List Char → Caps → Cont → Option Caps) (hb : IsClsRun p body) :
    ∀ (n fuel : Nat) (s : List Char) (pos : Nat) (caps : Caps), n ≤ fuel →
      repLoop body fuel n (some n) pos s caps k
        = if n ≤ s.length ∧ ∀ c ∈ s.take n, p c = true then k (pos + n) (s.drop n) caps
          else none := by
  intro n
  induction n with
  | zero =>
    intro fuel s pos caps _
    cases fuel <;> simp [repLoop]
  | succ m ih =>
    intro fuel s pos caps h
    cases fuel with
    | zero => omega
    | succ f =>
      have hf : m ≤ f := by omega
      cases s with
      | nil => simp [repLoop, hb pos []]
      | cons c t =>
        by_cases hp : p c = true
        · have e : pos + 1 + m = pos + (m + 1) := by omega
          simp [repLoop, hb pos (c :: t), hp, ih f t (pos + 1) caps hf, e]
          split <;> (rename_i hq; exact hq.symm)
        · simp [repLoop, hb pos (c :: t), hp]

theorem rep_plus_cls (p : Char → Bool) (k : Cont) (s : List Char) (pos : Nat) (caps : Caps) :
    repLoop (Regex.cls p).run (1 + s.length) 1 none pos s caps k = plusCls p k pos s caps :=
  repLoop_cls_plus p k _ (isClsRun_cls p) _ s pos caps (by omega)

theorem rep_exact_cls (p : Char → Bool) (k : Cont) (n : Nat) (s : List Char) (pos : Nat)
    (caps : Caps) :
    repLoop (Regex.cls p).run (n + s.length) n (some n) pos s caps k
      = if n ≤ s.length ∧ ∀ c ∈ s.take n, p c = true then k (pos + n) (s.drop n) caps
        else none :=
  repLoop_cls_exact p k _ (isClsRun_cls p) n _ s pos caps (by omega)

/-- A greedy `p*` followed by the end of the text takes the whole text. -/
theorem starCls_end (p : Char → Bool) (f : Nat → Caps → Caps) :
    ∀ (s : List Char) (pos : Nat) (caps : Caps),
      starCls p (fun pos1 s1 caps1 => if s1 = [] then some (f pos1 caps1) else none) pos s caps
        = if ∀ c ∈ s, p c = true then some (f (pos + s.length) caps) else none := by
  intro s
  induction s with
  | nil => intro pos caps; simp [starCls]
  | cons c t ih =>
    intro pos caps
    have e : pos + 1 + t.length = pos + (t.length + 1) := by omega
    by_cases hp : p c = true
    · simp only [starCls, hp, if_true, ih, e, List.length_cons, List.mem_cons, forall_eq_or_imp,
        true_and, reduceCtorEq, if_false]
      split <;> (rename_i hq; exact hq.symm)
    · simp [starCls, hp]

/-- What a successful greedy `p*` did: it took some characters of the class and the
continuation accepted the rest. -/
theorem starCls_sound (p : Char → Bool) (k : Cont) :
    ∀ (s : List Char) (pos : Nat) (caps r : Caps), starCls p k pos s caps = some r →
      ∃ n, n ≤ s.length ∧ (∀ c ∈ s.take n, p c = true)
        ∧ k (pos + n) (s.drop n) caps = some r := by
  intro s
  induction s with
  | nil => intro pos caps r h; exact ⟨0, by simp, by simp, by simpa [starCls] using h⟩
  | cons c t ih =>
    intro pos caps r h
    by_cases hp : p c = true
    · simp only [starCls, hp, if_true] at h
      cases hs : starCls p k (pos + 1) t caps with
      | some r1 =>
        rw [hs] at h
        obtain ⟨n, hn, hall, hk⟩ := ih (pos + 1) caps r1 hs
        refine ⟨n + 1, by simpa using hn, ?_, ?_⟩
        · simpa [hp] using hall
        · have e : pos + (n + 1) = pos + 1 + n := by omega
          simp only [List.drop_succ_cons, e]
          rw [hk]; exact h
      | none =>
        rw [hs] at h
        exact ⟨0, by simp, by simp, by simpa using h⟩
    · simp only [starCls, hp] at h
      exact ⟨0, by simp, by simp, by simpa using h⟩

/-- A greedy `p*` succeeds whenever the continuation accepts after some characters of
the class. -/
theorem starCls_complete (p : Char → Bool) (k : Cont) (q : List Char) :
    ∀ (ws : List Char) (pos : Nat) (caps : Caps), (∀ c ∈ ws, p c = true) →
      (k (pos + ws.length) q caps).isSome = true →
      (starCls p k pos (ws ++ q) caps).isSome = true := by
  intro ws
  induction ws with
  | nil =>
    intro pos caps _ hk
    simp only [List.length_nil, Nat.add_zero] at hk
    cases q with
    | nil => simpa [starCls] using hk
    | cons c t =>
      simp only [List.nil_append, starCls]
      split
      · split
        · rfl
        · exact hk
      · exact hk
  | cons w ws ih =>
    intro pos caps hall hk
    have hw : p w = true := hall w (List.mem_cons_self _ _)
    have e : pos + (w :: ws).length = pos + 1 + ws.length := by simp; omega
    have := ih (pos + 1) caps (fun c hc => hall c (List.mem_cons_of_mem _ hc)) (e ▸ hk)
    simp only [List.cons_append, starCls, hw, if_true]
    cases hs : starCls p k (pos + 1) (ws ++ q) caps with
    | some r => rfl
    | none => rw [hs] at this; cases this

/-- A greedy `p*` stops at the first character outside the class when the continuation
accepts there. -/
theorem starCls_exact (p : Char → Bool) (k : Cont) (q : List Char) (r : Caps)
    (hq : ∀ c t, q = c :: t → p c = false) :
    ∀ (ws : List Char) (pos : Nat) (caps : Caps), (∀ c ∈ ws, p c = true) →
      k (pos + ws.length) q caps = some r →
      starCls p k pos (ws ++ q) caps = some r := by
  intro ws
  induction ws with
  | nil =>
    intro pos caps _ hk
    simp only [List.length_nil, Nat.add_zero] at hk
    cases q with
    | nil => simpa [starCls] using hk
    | cons c t => simp [starCls, hq c t rfl, hk]
  | cons w ws ih =>
    intro pos caps hall hk
    have hw : p w = true := hall w (List.mem_cons_self _ _)
    have e : pos + (w :: ws).length = pos + 1 + ws.length := by simp; omega
    have := ih (pos + 1) caps (fun c hc => hall c (List.mem_cons_of_mem _ hc)) (e ▸ hk)
    simp [starCls, hw, this]

namespace tags

theorem nameCont_eq (pos : Nat) (q : List Char) (caps : Caps) :
    plusCls notSpaceClass
        (fun p3 s3 c3 => if s3 = [] then kfin p3 s3 ((0, 0, p3) :: (2, pos, p3) :: c3) else none)
        pos q caps
      = nameCont pos q caps := by
  cases q with
  | nil => simp [plusCls, nameCont]
  | cons c t =>
    have e : pos + 1 + t.length = pos + (t.length + 1) := by omega
    simp only [plusCls, nameCont, kfin,
      starCls_end notSpaceClass (fun p3 c3 => (0, 0, p3) :: (2, pos, p3) :: c3), e,
      List.length_cons, List.mem_cons, forall_eq_or_imp, ne_eq, reduceCtorEq, not_false_eq_true,
      true_and]
    by_cases hc : notSpaceClass c = true <;> simp [hc]

/-- The match of `refPattern` at the start of a text. -/
theorem refPattern_run (s : List Char) :
    (Regex.cap 0 refPattern).run 0 s [] kfin
      = if 40 ≤ s.length ∧ ∀ c ∈ s.take 40, hexClass c = true then
          plusCls blankClass nameCont 40 (s.drop 40) [(1, 0, 40)]
        else none := by
  have h : (Regex.cap 0 refPattern).run 0 s [] kfin
      = repLoop (Regex.cls hexClass).run (40 + s.length) 40 (some 40) 0 s []
          (fun pos1 s1 caps1 =>
            repLoop (Regex.cls blankClass).run (1 + s1.length) 1 none pos1 s1
              ((1, 0, pos1) :: caps1)
              (fun pos2 s2 caps2 =>
                repLoop (Regex.cls notSpaceClass).run (1 + s2.length) 1 none pos2 s2 caps2
                  (fun pos3 s3 caps3 =>
                    if s3 = [] then kfin pos3 s3 ((0, 0, pos3) :: (2, pos2, pos3) :: caps3)
                    else none))) := rfl
  rw [h]
  simp only [rep_exact_cls, rep_plus_cls, nameCont_eq, Nat.zero_add]

/-- The pattern starts with `^`: it matches at the start of the text or nowhere. -/
theorem refPattern_search_pos (s : List Char) :
    ∀ pos, 0 < pos → refPattern.search pos s = none := by
  have hrun : ∀ (pos : Nat) (s1 : List Char), 0 < pos →
      (Regex.cap 0 refPattern).run pos s1 [] kfin = none := by
    intro pos s1 hpos
    have hne : ¬ pos = 0 := by omega
    simp [refPattern, Regex.run, hne]
  induction s with
  | nil => intro pos hpos; simp only [Regex.search, hrun pos [] hpos]
  | cons c t ih =>
    intro pos hpos
    simp only [Regex.search, hrun pos (c :: t) hpos, ih (pos + 1) (by omega)]

theorem refPattern_search (s : List Char) :
    refPattern.search 0 s = (Regex.cap 0 refPattern).run 0 s [] kfin := by
  cases s with
  | nil => rfl
  | cons c t =>
    simp only [Regex.search, refPattern_search_pos t 1 (by omega)]
    cases (Regex.cap 0 refPattern).run 0 (c :: t) [] kfin <;> rfl

/-- What `parseRefLine` returns, from the match at the start of the line. -/
theorem parseRefLine_eq (line : List Char) :
    parseRefLine (String.mk line)
      = match (Regex.cap 0 refPattern).run 0 line [] kfin with
        | none => .error (.badLine (String.mk line))
        | some caps => .ok ⟨submatch line caps 1, submatch line caps 2⟩ := by
  simp only [parseRefLine, FindStringSubmatch, refPattern_search]
  cases (Regex.cap 0 refPattern).run 0 line [] kfin with
  | none => rfl
  | some caps =>
    have h3 : List.range (2 + 1) = [0, 1, 2] := rfl
    simp [h3]

/-- A line made of 40 characters of `[a-f0-9]`, blanks, and a name without space that
does not start with a tab is parsed into its id and its name. -/
theorem parseRefLine_of_parts (id blanks name : List Char)
    (hid : id.length = 40) (hhex : ∀ c ∈ id, hexClass c = true)
    (hb : blanks ≠ []) (hblank : ∀ c ∈ blanks, blankClass c = true)
    (hn : name ≠ []) (hname : ∀ c ∈ name, notSpaceClass c = true)
    (hfirst : ∀ c t, name = c :: t → blankClass c = false) :
    parseRefLine (String.mk (id ++ blanks ++ name)) = .ok ⟨String.mk id, String.mk name⟩ := by
  obtain ⟨w, ws, rfl⟩ := List.exists_cons_of_ne_nil hb
  have htake : (id ++ (w :: ws) ++ name).take 40 = id := by
    rw [List.append_assoc, ← hid, List.take_left]
  have hdrop : (id ++ (w :: ws) ++ name).drop 40 = w :: (ws ++ name) := by
    rw [List.append_assoc, ← hid, List.drop_left]; rfl
  have hlen : 40 ≤ (id ++ (w :: ws) ++ name).length := by simp [hid]
  have hw : blankClass w = true := hblank w (List.mem_cons_self _ _)
  have hstar := starCls_exact blankClass nameCont name
    ((0, 0, 41 + ws.length + name.length) :: (2, 41 + ws.length, 41 + ws.length + name.length)
      :: [(1, 0, 40)]) hfirst ws 41 [(1, 0, 40)]
    (fun c hc => hblank c (List.mem_cons_of_mem _ hc))
    (by simp only [nameCont]; rw [if_pos ⟨hn, hname⟩])
  have hrun : (Regex.cap 0 refPattern).run 0 (id ++ (w :: ws) ++ name) [] kfin
      = some ((0, 0, 41 + ws.length + name.length)
          :: (2, 41 + ws.length, 41 + ws.length + name.length) :: [(1, 0, 40)]) := by
    rw [refPattern_run, htake, hdrop]
    simp only [hlen, true_and, plusCls, hw, if_true]
    rw [if_pos hhex]
    exact hstar
  rw [parseRefLine_eq, hrun]
  have h2 : (id ++ (w :: ws) ++ name).drop (41 + ws.length) = name := by
    have e : 41 + ws.length = (id ++ (w :: ws)).length := by simp [hid]; omega
    rw [e, List.drop_left]
  have h3 : 41 + ws.length + name.length - (41 + ws.length) = name.length := by omega
  simp only [List.append_assoc, List.cons_append] at htake h2
  simp [submatch, List.find?, htake, h2, h3]

/-- A line that `parseRefLine` accepts is made of 40 characters of `[a-f0-9]`, blanks,
and a non-empty rest without space. -/
theorem parseRefLine_sound (line : List Char) (r : ref)
    (h : parseRefLine (String.mk line) = .ok r) : Accepted line := by
  rw [parseRefLine_eq, refPattern_run] at h
  split at h
  · cases h
  · rename_i caps hrun
    split at hrun
    · rename_i hcond
      cases hd : line.drop 40 with
      | nil => rw [hd] at hrun; simp [plusCls] at hrun
      | cons w t =>
        rw [hd] at hrun
        simp only [plusCls] at hrun
        split at hrun
        · rename_i hw
          obtain ⟨n, hn, hall, hk⟩ := starCls_sound blankClass nameCont t 41 _ _ hrun
          simp only [nameCont] at hk
          split at hk
          · rename_i hname
            refine ⟨⟨line.take 40, w :: t.take n, t.drop n⟩, ?_, ?_, hcond.2, by simp, ?_,
              hname.1, ?_⟩
            · simp only [RefLine.text, List.append_assoc, List.cons_append,
                List.take_append_drop, ← hd]
            · simp [List.length_take, hcond.1]
            · intro c hc
              rcases List.mem_cons.1 hc with rfl | hc
              · exact hw
              · exact hall c hc
            · intro c hc
              simpa [notSpaceClass] using hname.2 c hc
          · cases hk
        · cases hrun
    · cases hrun

/-- Every line made of 40 characters of `[a-f0-9]`, blanks, and a non-empty rest without
space is accepted by `parseRefLine`. -/
theorem parseRefLine_complete (line : List Char) (h : Accepted line) :
    ∃ r, parseRefLine (String.mk line) = .ok r := by
  obtain ⟨⟨id, blanks, name⟩, rfl, hid, hhex, hb, hblank, hn, hname⟩ := h
  simp only at hid hhex hb hblank hn hname
  obtain ⟨w, ws, rfl⟩ := List.exists_cons_of_ne_nil hb
  have htake : (id ++ (w :: ws) ++ name).take 40 = id := by
    rw [List.append_assoc, ← hid, List.take_left]
  have hdrop : (id ++ (w :: ws) ++ name).drop 40 = w :: (ws ++ name) := by
    rw [List.append_assoc, ← hid, List.drop_left]; rfl
  have hlen : 40 ≤ (id ++ (w :: ws) ++ name).length := by simp [hid]
  have hw : blankClass w = true := hblank w (List.mem_cons_self _ _)
  have hstar := starCls_complete blankClass nameCont name ws 41 [(1, 0, 40)]
    (fun c hc => hblank c (List.mem_cons_of_mem _ hc))
    (by
      simp only [nameCont]
      rw [if_pos ⟨hn, fun c hc => by simpa [notSpaceClass] using hname c hc⟩]
      rfl)
  have hrun : ((Regex.cap 0 refPattern).run 0 (id ++ (w :: ws) ++ name) [] kfin).isSome
      = true := by
    rw [refPattern_run, htake, hdrop]
    simp only [hlen, true_and, plusCls, hw, if_true]
    rw [if_pos hhex]
    exact hstar
  simp only [RefLine.text]
  rw [parseRefLine_eq]
  cases hr : (Regex.cap 0 refPattern).run 0 (id ++ (w :: ws) ++ name) [] kfin with
  | none => rw [hr] at hrun; cases hrun
  | some caps => exact ⟨_, rfl⟩

theorem scanSegments_append (l : List Char) (hl : '\n' ∉ l) :
    ∀ (cur rest : List Char), scanSegments (l ++ rest) cur = scanSegments rest (cur ++ l) := by
  induction l with
  | nil => intro cur rest; simp
  | cons c t ih =>
    intro cur rest
    have hc : ¬ c = '\n' := fun h => hl (h ▸ List.mem_cons_self _ _)
    have ht : '\n' ∉ t := fun h => hl (List.mem_cons_of_mem _ h)
    rw [List.cons_append, scanSegments, if_neg hc, ih ht]
    simp

/-- Scanning lines joined by line feeds gives the lines back, when none is empty and
none holds a line feed. -/
theorem scanSegments_joinLines :
    ∀ ls : List (List Char), (∀ l ∈ ls, l ≠ [] ∧ '\n' ∉ l) →
      scanSegments (joinLines ls) [] = ls := by
  intro ls
  induction ls with
  | nil => intro _; rfl
  | cons l rest ih =>
    intro h
    have hl := h l (List.mem_cons_self _ _)
    cases rest with
    | nil =>
      have := scanSegments_append l hl.2 [] []
      simp only [List.append_nil, List.nil_append] at this
      simp [joinLines, this, scanSegments, hl.1]
    | cons l2 rest2 =>
      have hrest := ih (fun x hx => h x (List.mem_cons_of_mem _ hx))
      simp only [joinLines, scanSegments_append l hl.2, List.nil_append, scanSegments, if_true,
        hrest]

theorem dropCR_append (a name : List Char) (hn : name ≠ []) (hcr : '\r' ∉ name) :
    dropCR (a ++ name) = a ++ name := by
  have hlast : (a ++ name).getLast? = name.getLast? := by
    rw [List.getLast?_append]
    cases h : name.getLast? with
    | none => exact absurd (List.getLast?_eq_none_iff.1 h) hn
    | some c => rfl
  simp only [dropCR, hlast]
  split
  · rename_i h
    exact absurd (List.mem_of_getLast?_eq_some h) hcr
  · rfl

theorem utf8_length_le (l : List Char) : l.length ≤ (l.flatMap utf8EncodeChar).length := by
  induction l with
  | nil => simp
  | cons c t ih =>
    have hc : 1 ≤ (utf8EncodeChar c).length := by
      simp only [utf8EncodeChar]
      split_ifs <;> simp
    simp only [List.flatMap_cons, List.length_append, List.length_cons]
    omega

theorem WellShaped_no_newline (l : RefLine) (h : l.WellShaped) :
    l.text ≠ [] ∧ '\n' ∉ l.text := by
  obtain ⟨-, hhex, -, hblank, hn, hname⟩ := h
  constructor
  · simp [RefLine.text, hn]
  · simp only [RefLine.text, List.mem_append, not_or]
    exact ⟨⟨fun hc => absurd (hhex _ hc) (by decide), fun hc => absurd (hblank _ hc) (by decide)⟩,
      fun hc => (hname _ hc).2.2.1 rfl⟩

theorem parseRefLine_wellShaped (l : RefLine) (h : l.WellShaped) :
    parseRefLine (String.mk (dropCR l.text)) = .ok l.toRef := by
  obtain ⟨hid, hhex, hb, hblank, hn, hname⟩ := h
  rw [RefLine.text, dropCR_append _ _ hn (fun hc => (hname _ hc).2.2.2 rfl)]
  refine parseRefLine_of_parts l.id l.blanks l.name hid hhex hb hblank hn ?_ ?_
  · intro c hc
    simpa [notSpaceClass] using (hname c hc).1
  · intro c t hct
    have hc := hname c (hct ▸ List.mem_cons_self _ _)
    simp [blankClass, hc.1, hc.2.1]

theorem parseRefsLoop_wellShaped :
    ∀ (ls : List RefLine) (refs : List ref),
      (∀ l ∈ ls, l.WellShaped ∧ (l.text.flatMap utf8EncodeChar).length < MaxScanTokenSize) →
      parseRefsLoop (ls.map RefLine.text) refs = .ok (refs ++ ls.map RefLine.toRef) := by
  intro ls
  induction ls with
  | nil => intro refs _; simp [parseRefsLoop]
  | cons l rest ih =>
    intro refs h
    have hl := h l (List.mem_cons_self _ _)
    have hshort : ¬ MaxScanTokenSize ≤ (l.text.flatMap utf8EncodeChar).length := by omega
    simp only [List.map_cons, parseRefsLoop, hshort, if_false, parseRefLine_wellShaped l hl.1,
      ih (refs ++ [l.toRef]) (fun x hx => h x (List.mem_cons_of_mem _ hx))]
    simp

theorem parseRefsLoop_rejects :
    ∀ (segs : List (List Char)) (refs : List ref),
      (∃ seg ∈ segs, ¬ Accepted (dropCR seg)) → ∃ e, parseRefsLoop segs refs = .error e := by
  intro segs
  induction segs with
  | nil => rintro refs ⟨seg, hseg, -⟩; cases hseg
  | cons s rest ih =>
    rintro refs ⟨seg, hseg, hbad⟩
    simp only [parseRefsLoop]
    split
    · exact ⟨_, rfl⟩
    · cases hp : parseRefLine (String.mk (dropCR s)) with
      | error e => exact ⟨_, rfl⟩
      | ok r =>
        simp only
        rcases List.mem_cons.1 hseg with rfl | hmem
        · exact absurd (parseRefLine_sound _ r hp) hbad
        · exact ih _ ⟨seg, hmem, hbad⟩

/-- C10, as the code has it. For every list of lines, each shorter than 65536 bytes and
made of a 40-character id over `[0-9a-f]`, a non-empty run of spaces or tabs, and a
non-empty name without space, tab, line feed or carriage return, `parseRefs` applied to
the lines joined by line feeds returns, without error, one ref per line in input order,
with the id and the name of the line. The lines `parseRefLine` accepts are those made of
such an id, such a run, and a non-empty rest without space (tabs are allowed in it); and
`parseRefs` returns an error whenever one of the texts between the line feeds of its
input, once a trailing carriage return is dropped, is not such a line. -/
theorem parseRefs_spec :
    (∀ ls : List RefLine,
        (∀ l ∈ ls, l.WellShaped ∧ (l.text.flatMap utf8EncodeChar).length < MaxScanTokenSize) →
        parseRefs (String.mk (joinLines (ls.map RefLine.text))) = .ok (ls.map RefLine.toRef))
      ∧ (∀ line : List Char, (∃ r, parseRefLine (String.mk line) = .ok r) ↔ Accepted line)
      ∧ (∀ raw : String, (∃ seg ∈ scanSegments raw.data [], ¬ Accepted (dropCR seg)) →
          ∃ e, parseRefs raw = .error e) := by
  refine ⟨?_, ?_, ?_⟩
  · intro ls h
    have hseg : scanSegments (joinLines (ls.map RefLine.text)) [] = ls.map RefLine.text := by
      apply scanSegments_joinLines
      intro t ht
      obtain ⟨l, hl, rfl⟩ := List.mem_map.1 ht
      exact WellShaped_no_newline l (h l hl).1
    simp only [parseRefs, hseg, parseRefsLoop_wellShaped ls [] h, List.nil_append]
  · intro line
    exact ⟨fun ⟨r, hr⟩ => parseRefLine_sound line r hr, parseRefLine_complete line⟩
  · intro raw h
    exact parseRefsLoop_rejects _ [] h

/-- An instance of C10 as the code has it: two lines are parsed into two refs. -/
theorem parseRefs_spec_witness :
    parseRefs (String.mk (joinLines (twoLines.map RefLine.text)))
      = .ok (twoLines.map RefLine.toRef) :=
  parseRefs_spec.1 twoLines (by
    intro l hl
    simp only [twoLines, List.mem_cons, List.mem_singleton, List.not_mem_nil, or_false] at hl
    rcases hl with rfl | rfl <;> exact ⟨by unfold RefLine.WellShaped; decide, by decide⟩)

theorem longLine_wellShaped : longLine.WellShaped := by
  refine ⟨rfl, by decide, by decide, by decide, ?_, ?_⟩
  · show List.replicate 65536 'x' ≠ []
    intro h
    have h2 := congrArg List.length h
    rw [List.length_replicate, List.length_nil] at h2
    omega
  · intro c hc
    have h2 : c = 'x' := List.eq_of_mem_replicate hc
    subst h2
    decide

theorem longLine_tooLong :
    MaxScanTokenSize ≤ (longLine.text.flatMap utf8EncodeChar).length := by
  refine le_trans ?_ (utf8_length_le _)
  show 64 * 1024 ≤ (longLine.id ++ longLine.blanks ++ List.replicate 65536 'x').length
  rw [List.length_append, List.length_replicate]
  omega

/-- C10 as stated fails, in both halves. The line `tabLine` does not have the shape
asked for (its name would hold a tab) and yet `parseRefs` returns a ref for it, with no
error; and the line `longLine` has the shape asked for and yet `parseRefs` returns the
error `bufio.ErrTooLong` for it. -/
theorem parseRefs_not_as_stated :
    ((¬ ∃ l : RefLine, l.WellShaped ∧ l.text = tabLine.data)
        ∧ parseRefs tabLine = .ok [⟨"a278d1424a011185748c4690c99c10a6d0676435", "x\ty"⟩])
      ∧ (longLine.WellShaped ∧ parseRefs (String.mk longLine.text) = .error .ErrTooLong) := by
  refine ⟨⟨?_, rfl⟩, longLine_wellShaped, ?_⟩
  · rintro ⟨⟨id, blanks, name⟩, ⟨hid, -, hb, hblank, hn, hname⟩, htext⟩
    simp only [RefLine.text] at htext hid hb hblank hn hname
    have h := congrArg (List.drop 40) htext
    rw [List.append_assoc, ← hid, List.drop_left] at h
    have h2 : List.drop id.length tabLine.data = [' ', 'x', '\t', 'y'] := by rw [hid]; rfl
    rw [h2] at h
    rcases blanks with _ | ⟨b1, _ | ⟨b2, bs⟩⟩
    · exact hb rfl
    · simp only [List.cons_append, List.nil_append, List.cons.injEq] at h
      exact (hname '\t' (by rw [h.2]; simp)).2.1 rfl
    · simp only [List.cons_append, List.cons.injEq] at h
      have := hblank b2 (by simp)
      rw [h.2.1] at this
      exact absurd this (by decide)
  · have hseg : scanSegments longLine.text [] = [longLine.text] :=
      scanSegments_joinLines [longLine.text]
        (by
          intro l hl
          rw [List.mem_singleton.1 hl]
          exact WellShaped_no_newline _ longLine_wellShaped)
    show parseRefsLoop (scanSegments longLine.text []) [] = .error .ErrTooLong
    rw [hseg]
    rw [parseRefsLoop, if_pos longLine_tooLong]

end tags

/-! ## Further claims about `tokenstore.go` -/

/-- C12 fails on the code. With a valid key in the "-keys" ring and a token file of 3
bytes, `secretBoxFileTokenStore.Get` panics at `encrypted[24:]`; with 66 hex characters
stored as the key it panics in `hex.Decode`, which writes past the 32 bytes of
`secretKey`. `KeyringTokenStore.Get`, finding nothing in the primary ring, panics with
it. -/
theorem secretBoxFileTokenStore_Get_panics :
    (Demo.fileStore.Get (Demo.env 100) "k" Demo.shortFile).1 = .panic .sliceBoundsOutOfRange
      ∧ (Demo.fileStore.Get (Demo.env 100) "k" Demo.longKey).1 = .panic .indexOutOfRange
      ∧ ((NewKeyringTokenStore "svc").Get (Demo.env 100) "k" Demo.shortFile).1
          = .panic .sliceBoundsOutOfRange
      ∧ ((NewKeyringTokenStore "svc").Get (Demo.env 100) "k" Demo.longKey).1
          = .panic .indexOutOfRange := by
  refine ⟨by decide, by decide, by decide, by decide⟩

/-- C13. The name of the token file does not separate the ring from the key: the pairs
`("a-b", "c")` and `("a", "b-c")` differ and give the same hashed text `a-b-c`, hence
the same file name whatever the digest function is. So do two slots of stores made by
`NewKeyringTokenStore`: key `keys-x` of the service `a` and key `x` of the service
`a-keys`. -/
theorem deriveFileName_not_separating (E : Env Token) :
    (("a-b", "c") : String × String) ≠ ("a", "b-c")
      ∧ "a-b" ++ "-" ++ "c" = "a" ++ "-" ++ "b-c"
      ∧ deriveFileName E "a-b" "c" = deriveFileName E "a" "b-c"
      ∧ (("a", "keys-x") : String × String) ≠ ("a-keys", "x")
      ∧ deriveFileName E (NewKeyringTokenStore "a").fileTokenStore.ringName "keys-x"
          = deriveFileName E (NewKeyringTokenStore "a-keys").fileTokenStore.ringName "x" := by
  have h1 : "a-b" ++ "-" ++ "c" = "a" ++ "-" ++ "b-c" := by decide
  have h2 : (NewKeyringTokenStore "a").fileTokenStore.ringName ++ "-" ++ "keys-x"
      = (NewKeyringTokenStore "a-keys").fileTokenStore.ringName ++ "-" ++ "x" := by decide
  refine ⟨by decide, h1, ?_, by decide, ?_⟩
  · simp only [deriveFileName, h1]
  · simp only [deriveFileName, h2]

/-! ## Further facts about the matcher -/

theorem repLoop_extends (G : List Nat) (body : Nat → List Char → Caps → Cont → Option Caps)
    (hb : Extends G body) :
    ∀ (fuel min : Nat) (max : Option Nat), Extends G (repLoop body fuel min max) := by
  intro fuel
  induction fuel with
  | zero =>
    intro min max pos s caps k r h
    simp only [repLoop] at h
    split at h
    · exact ⟨pos, s, [], by simp, by simpa using h⟩
    · cases h
  | succ n ih =>
    intro min max pos s caps k r h
    simp only [repLoop] at h
    split at h
    · exact ⟨pos, s, [], by simp, by simpa using h⟩
    · split at h
      · rename_i r1 hbody
        cases h
        obtain ⟨pos1, s1, e1, he1, hk⟩ := hb _ _ _ _ _ hbody
        split at hk
        · cases hk
        · obtain ⟨pos2, s2, e2, he2, hk2⟩ := ih _ _ _ _ _ _ _ hk
          refine ⟨pos2, s2, e2 ++ e1, ?_, by simpa [List.append_assoc] using hk2⟩
          intro e he
          rcases List.mem_append.1 he with h1 | h1
          · exact he2 e h1
          · exact he1 e h1
      · split at h
        · exact ⟨pos, s, [], by simp, by simpa using h⟩
        · cases h

/-- The matcher of a regular expression adds submatches of its own groups only. -/
theorem run_extends : ∀ re : Regex, Extends re.groups re.run := by
  intro re
  induction re with
  | empty =>
    intro pos s caps k r h
    exact ⟨pos, s, [], by simp, by simpa [Regex.run] using h⟩
  | cls p =>
    intro pos s caps k r h
    cases s with
    | nil => simp [Regex.run] at h
    | cons c t =>
      simp only [Regex.run] at h
      split at h
      · exact ⟨pos + 1, t, [], by simp, by simpa using h⟩
      · cases h
  | cat a b iha ihb =>
    intro pos s caps k r h
    simp only [Regex.run] at h
    obtain ⟨pos1, s1, e1, he1, hk1⟩ := iha _ _ _ _ _ h
    obtain ⟨pos2, s2, e2, he2, hk2⟩ := ihb _ _ _ _ _ hk1
    refine ⟨pos2, s2, e2 ++ e1, ?_, by simpa [List.append_assoc] using hk2⟩
    intro e he
    simp only [Regex.groups, List.mem_append]
    rcases List.mem_append.1 he with h1 | h1
    · exact Or.inr (he2 e h1)
    · exact Or.inl (he1 e h1)
  | alt a b iha ihb =>
    intro pos s caps k r h
    simp only [Regex.run] at h
    split at h
    · rename_i r1 ha
      cases h
      obtain ⟨pos1, s1, e1, he1, hk1⟩ := iha _ _ _ _ _ ha
      exact ⟨pos1, s1, e1, fun e he => by
        simp only [Regex.groups, List.mem_append]; exact Or.inl (he1 e he), hk1⟩
    · obtain ⟨pos1, s1, e1, he1, hk1⟩ := ihb _ _ _ _ _ h
      exact ⟨pos1, s1, e1, fun e he => by
        simp only [Regex.groups, List.mem_append]; exact Or.inr (he1 e he), hk1⟩
  | rep a min max iha =>
    intro pos s caps k r h
    simp only [Regex.run] at h
    exact repLoop_extends a.groups a.run iha _ _ _ _ _ _ _ _ h
  | cap i a iha =>
    intro pos s caps k r h
    simp only [Regex.run] at h
    obtain ⟨pos1, s1, e1, he1, hk1⟩ := iha _ _ _ _ _ h
    refine ⟨pos1, s1, (i, pos, pos1) :: e1, ?_, by simpa using hk1⟩
    intro e he
    simp only [Regex.groups, List.mem_cons]
    rcases List.mem_cons.1 he with h1 | h1
    · exact Or.inl (by rw [h1])
    · exact Or.inr (he1 e h1)
  | bol =>
    intro pos s caps k r h
    simp only [Regex.run] at h
    split at h
    · exact ⟨pos, s, [], by simp, by simpa using h⟩
    · cases h
  | eol =>
    intro pos s caps k r h
    simp only [Regex.run] at h
    split at h
    · exact ⟨pos, s, [], by simp, by simpa using h⟩
    · cases h

/-- A repetition that may stop at once succeeds when what follows it does. -/
theorem repLoop_min0_isSome (body : Nat → List Char → Caps → Cont → Option Caps)
    (fuel : Nat) (max : Option Nat) (pos : Nat) (s : List Char) (caps : Caps) (k : Cont)
    (h : (k pos s caps).isSome = true) :
    (repLoop body fuel 0 max pos s caps k).isSome = true := by
  cases fuel with
  | zero => simpa [repLoop] using h
  | succ n =>
    simp only [repLoop]
    split
    · exact h
    · split
      · rfl
      · simpa using h

/-- No further iteration is made once the maximum is reached. -/
theorem repLoop_max0 (body : Nat → List Char → Caps → Cont → Option Caps)
    (fuel : Nat) (pos : Nat) (s : List Char) (caps : Caps) (k : Cont) :
    repLoop body fuel 0 (some 0) pos s caps k = k pos s caps := by
  cases fuel <;> simp [repLoop]

theorem rep_star_cls (p : Char → Bool) (k : Cont) (s : List Char) (pos : Nat) (caps : Caps) :
    repLoop (Regex.cls p).run (0 + s.length) 0 none pos s caps k = starCls p k pos s caps :=
  repLoop_cls_star p k _ (isClsRun_cls p) _ s pos caps (by omega)

/-- A greedy `p*` that succeeds after some characters of the class succeeds the same way
from before them. -/
theorem starCls_first (p : Char → Bool) (k : Cont) (b : List Char) (r : Caps) :
    ∀ (a : List Char) (pos : Nat) (caps : Caps), (∀ c ∈ a, p c = true) →
      starCls p k (pos + a.length) b caps = some r →
      starCls p k pos (a ++ b) caps = some r := by
  intro a
  induction a with
  | nil => intro pos caps _ h; simpa using h
  | cons c t ih =>
    intro pos caps hall h
    have hc : p c = true := hall c (List.mem_cons_self _ _)
    have e : pos + (c :: t).length = pos + 1 + t.length := by simp; omega
    have := ih (pos + 1) caps (fun x hx => hall x (List.mem_cons_of_mem _ hx)) (e ▸ h)
    simp [starCls, hc, this]

/-- A greedy `p*` fails when what follows it fails wherever it may stop. -/
theorem starCls_none (p : Char → Bool) (k : Cont) :
    ∀ (s : List Char) (pos : Nat) (caps : Caps),
      (∀ n, n ≤ s.length → k (pos + n) (s.drop n) caps = none) →
      starCls p k pos s caps = none := by
  intro s
  induction s with
  | nil => intro pos caps h; simpa [starCls] using h 0 (by simp)
  | cons c t ih =>
    intro pos caps h
    have h0 : k pos (c :: t) caps = none := by simpa using h 0 (by simp)
    have ht : starCls p k (pos + 1) t caps = none := by
      apply ih
      intro n hn
      have := h (n + 1) (by simpa using hn)
      have e : pos + (n + 1) = pos + 1 + n := by omega
      simpa [e] using this
    simp only [starCls]
    split
    · rw [ht]; exact h0
    · exact h0

/-- An optional expression: it is tried once, and skipped when that fails. -/
theorem repLoop_opt (body : Nat → List Char → Caps → Cont → Option Caps)
    (fuel : Nat) (hfuel : 0 < fuel) (pos : Nat) (s : List Char) (caps : Caps) (k : Cont) :
    repLoop body fuel 0 (some 1) pos s caps k
      = match body pos s caps (fun p1 s1 c1 => if p1 = pos then none else k p1 s1 c1) with
        | some r => some r
        | none => k pos s caps := by
  cases fuel with
  | zero => omega
  | succ n => simp [repLoop, repLoop_max0]

theorem search_of_run (re : Regex) (pos : Nat) (s : List Char) (r : Caps)
    (h : (Regex.cap 0 re).run pos s [] kfin = some r) : re.search pos s = some r := by
  cases s with
  | nil => simpa [Regex.search] using h
  | cons c t => simp [Regex.search, h]

namespace tags

theorem slashCont_nil (pos : Nat) (k : Cont) (p2 : Nat) (c2 : Caps) :
    slashCont pos k p2 [] c2 = none := rfl

theorem slashCont_cons (pos : Nat) (k : Cont) (p2 : Nat) (c : Char) (t : List Char)
    (c2 : Caps) :
    slashCont pos k p2 (c :: t) c2
      = if slashClass c = true then k (p2 + 1) t ((1, pos, p2 + 1) :: (2, pos, p2) :: c2)
        else none := rfl

/-- After `.+` has taken characters up to a text without `/`, the `/` is not found. -/
theorem starCls_slashCont_none (pos : Nat) (k : Cont) (v : List Char)
    (hv : ∀ c ∈ v, slashClass c = false) (p : Nat) (caps : Caps) :
    starCls anyClass (slashCont pos k) p v caps = none := by
  apply starCls_none
  intro n _
  cases hd : v.drop n with
  | nil => rfl
  | cons c t =>
    have hc : c ∈ v := List.mem_of_mem_drop (hd ▸ List.mem_cons_self c t)
    rw [slashCont_cons, hv c hc]
    rfl

/-- The pattern `v[0-9]+(\.[0-9]+){0,2}.*$` matches a text that starts with `v` and a
digit and holds no line feed; it adds a submatch 0 and submatches 3 only. -/
theorem versionPattern_run (pos : Nat) (d : Char) (w : List Char) (caps : Caps)
    (hd : digitClass d = true) (hw : ∀ c ∈ w, anyClass c = true) :
    ∃ stop extra, (∀ x ∈ extra, x.1 = 3)
      ∧ versionPattern.run pos ('v' :: d :: w) caps wholeCont
          = some ((0, 0, stop) :: (extra ++ caps)) := by
  have hunfold : versionPattern.run pos ('v' :: d :: w) caps wholeCont
      = repLoop (Regex.cls digitClass).run (1 + (d :: w).length) 1 none (pos + 1) (d :: w) caps
          (fun p1 s1 c1 =>
            repLoop (Regex.cap 3 (.cat (.cls dotClass) (.rep (.cls digitClass) 1 none))).run
              (0 + s1.length) 0 (some 2) p1 s1 c1
              (fun p2 s2 c2 =>
                repLoop (Regex.cls anyClass).run (0 + s2.length) 0 none p2 s2 c2
                  (fun p3 s3 c3 => if s3 = [] then wholeCont p3 s3 c3 else none))) := rfl
  have hsome : (versionPattern.run pos ('v' :: d :: w) caps wholeCont).isSome = true := by
    rw [hunfold]
    simp only [rep_plus_cls, rep_star_cls, plusCls, hd, if_true]
    apply starCls_complete digitClass _ w [] (pos + 1 + 1) caps (by simp)
    apply repLoop_min0_isSome
    have := starCls_complete anyClass
      (fun p3 s3 c3 => if s3 = [] then wholeCont p3 s3 c3 else none) [] w
      (pos + 1 + 1 + ([] : List Char).length) caps hw (by simp [wholeCont, kfin])
    simpa using this
  cases hr : versionPattern.run pos ('v' :: d :: w) caps wholeCont with
  | none => rw [hr] at hsome; cases hsome
  | some r =>
    obtain ⟨pos1, s1, extra, hex, hk⟩ := run_extends versionPattern _ _ _ _ _ hr
    simp only [wholeCont, kfin, Option.some.injEq] at hk
    refine ⟨pos1, extra, ?_, by rw [← hk]⟩
    intro x hx
    have := hex x hx
    simpa [versionPattern, Regex.groups] using this

/-- The match of `tagPattern` at the start of a non-empty text: the group `((.+)/)` is
tried first, then the version alone. -/
theorem tagPattern_run (c : Char) (t : List Char) :
    (Regex.cap 0 tagPattern).run 0 (c :: t) [] kfin
      = match plusCls anyClass
            (slashCont 0 (fun p1 s1 c1 =>
              if p1 = 0 then none else versionPattern.run p1 s1 c1 wholeCont)) 0 (c :: t) [] with
        | some r => some r
        | none => versionPattern.run 0 (c :: t) [] wholeCont := by
  have hunfold : (Regex.cap 0 tagPattern).run 0 (c :: t) [] kfin
      = repLoop
          (fun pos s caps k =>
            repLoop (Regex.cls anyClass).run (1 + s.length) 1 none pos s caps (slashCont pos k))
          (0 + (c :: t).length) 0 (some 1) 0 (c :: t) []
          (fun p1 s1 c1 => versionPattern.run p1 s1 c1 wholeCont) := rfl
  rw [hunfold, repLoop_opt _ _ (by simp)]
  simp only [rep_plus_cls]

theorem isPrefixOf_append (a b : List Char) : a.isPrefixOf (a ++ b) = true := by
  induction a with
  | nil => simp [List.isPrefixOf]
  | cons c t ih => simp [List.isPrefixOf, ih]

theorem TrimPrefix_append (a b : List Char) :
    TrimPrefix (String.mk (a ++ b)) (String.mk a) = String.mk b := by
  simp [TrimPrefix, isPrefixOf_append]

theorem TrimPrefix_empty (s : String) : TrimPrefix s "" = s := by
  simp [TrimPrefix, List.isPrefixOf]

/-- Looking up a group other than 0 and 3 skips the submatches of those two. -/
theorem find_skip (i stop : Nat) (hi0 : i ≠ 0) (hi3 : i ≠ 3) (rest : Caps) :
    ∀ extra : Caps, (∀ x ∈ extra, x.1 = 3) →
      List.find? (fun c => decide (c.1 = i)) ((0, 0, stop) :: (extra ++ rest))
        = List.find? (fun c => decide (c.1 = i)) rest := by
  intro extra
  induction extra with
  | nil =>
    intro _
    have : ¬ 0 = i := fun h => hi0 h.symm
    simp [List.find?, this]
  | cons x xs ih =>
    intro h
    have hx : x.1 = 3 := h x (List.mem_cons_self _ _)
    have h0 : ¬ 0 = i := fun h => hi0 h.symm
    have h3 : ¬ x.1 = i := by rw [hx]; exact fun h => hi3 h.symm
    have := ih (fun y hy => h y (List.mem_cons_of_mem _ hy))
    simp only [List.find?, h0, decide_False] at this
    simp only [List.cons_append, List.find?, h0, h3, decide_False]
    exact this

/-- What `parseVersionWithGroup` returns, from the match at the start of the name. -/
theorem parseVersionWithGroup_of_run {Version : Type}
    (NewVersion : String → Except ExtErr Version) (name : List Char) (r : Caps)
    (h : (Regex.cap 0 tagPattern).run 0 name [] kfin = some r) :
    parseVersionWithGroup NewVersion (String.mk name)
      = match NewVersion (TrimPrefix (String.mk name) (submatch name r 1)) with
        | .ok version => (submatch name r 2, some version, none)
        | .error e => (submatch name r 2, none, some (.ext e)) := by
  have h4 : List.range (3 + 1) = [0, 1, 2, 3] := rfl
  simp [parseVersionWithGroup, FindStringSubmatch, search_of_run tagPattern 0 name r h, h4]

theorem submatch_skip (s : List Char) (i stop : Nat) (hi0 : i ≠ 0) (hi3 : i ≠ 3)
    (rest extra : Caps) (hex : ∀ x ∈ extra, x.1 = 3) :
    submatch s ((0, 0, stop) :: (extra ++ rest)) i = submatch s rest i := by
  simp only [submatch]
  rw [find_skip i stop hi0 hi3 rest extra hex]

theorem submatch_groups (s : List Char) (a b : Nat) :
    submatch s [(1, 0, a), (2, 0, b)] 1 = String.mk (s.take a)
      ∧ submatch s [(1, 0, a), (2, 0, b)] 2 = String.mk (s.take b) := by
  simp [submatch, List.find?]

theorem starCls_cons_true (p : Char → Bool) (k : Cont) (pos : Nat) (c : Char)
    (t : List Char) (caps : Caps) (h : p c = true) :
    starCls p k pos (c :: t) caps
      = match starCls p k (pos + 1) t caps with
        | some r => some r
        | none => k pos (c :: t) caps := by
  simp [starCls, h]

/-- At a `/` followed by a text without `/`, the `.+` of the group stops. -/
theorem starCls_slash (pos : Nat) (k : Cont) (v : List Char)
    (hv : ∀ c ∈ v, slashClass c = false) (p : Nat) (caps : Caps) :
    starCls anyClass (slashCont pos k) p ('/' :: v) caps
      = k (p + 1) v ((1, pos, p + 1) :: (2, pos, p) :: caps) := by
  rw [starCls_cons_true _ _ _ _ _ _ (by decide), starCls_slashCont_none pos k v hv]
  simp only [slashCont_cons]
  rw [if_pos (by decide)]

/-- The match of a name `g/v`: the group ends at the last `/`. -/
theorem tagPattern_run_group (g0 : Char) (g1 : List Char) (d : Char) (w : List Char)
    (hg : ∀ c ∈ g0 :: g1, anyClass c = true)
    (hd : digitClass d = true) (hw : ∀ c ∈ w, anyClass c = true)
    (hslash : ∀ c ∈ 'v' :: d :: w, slashClass c = false) :
    ∃ stop extra, (∀ x ∈ extra, x.1 = 3)
      ∧ (Regex.cap 0 tagPattern).run 0 (g0 :: g1 ++ '/' :: 'v' :: d :: w) [] kfin
          = some ((0, 0, stop)
              :: (extra ++ [(1, 0, 1 + g1.length + 1), (2, 0, 1 + g1.length)])) := by
  obtain ⟨stop, extra, hex, hrun⟩ := versionPattern_run (1 + g1.length + 1) d w
    [(1, 0, 1 + g1.length + 1), (2, 0, 1 + g1.length)] hd hw
  refine ⟨stop, extra, hex, ?_⟩
  have hg0 : anyClass g0 = true := hg g0 (List.mem_cons_self _ _)
  have hstar : starCls anyClass
      (slashCont 0 (fun p1 s1 c1 =>
        if p1 = 0 then none else versionPattern.run p1 s1 c1 wholeCont))
      (0 + 1) (g1 ++ '/' :: 'v' :: d :: w) []
        = some ((0, 0, stop)
            :: (extra ++ [(1, 0, 1 + g1.length + 1), (2, 0, 1 + g1.length)])) := by
    apply starCls_first anyClass _ _ _ g1 (0 + 1) []
      (fun c hc => hg c (List.mem_cons_of_mem _ hc))
    have hne : ¬ (0 + 1 + g1.length + 1 = 0) := by omega
    have e1 : 0 + 1 + g1.length = 1 + g1.length := by omega
    rw [starCls_slash 0 _ _ hslash, if_neg hne, e1]
    exact hrun
  rw [List.cons_append, tagPattern_run]
  simp only [plusCls, hg0, if_true, hstar]

/-- The match of a name `v` without `/`: the group takes no part in it. -/
theorem tagPattern_run_plain (d : Char) (w : List Char)
    (hd : digitClass d = true) (hw : ∀ c ∈ w, anyClass c = true)
    (hslash : ∀ c ∈ 'v' :: d :: w, slashClass c = false) :
    ∃ stop extra, (∀ x ∈ extra, x.1 = 3)
      ∧ (Regex.cap 0 tagPattern).run 0 ('v' :: d :: w) [] kfin
          = some ((0, 0, stop) :: (extra ++ [])) := by
  obtain ⟨stop, extra, hex, hrun⟩ := versionPattern_run 0 d w [] hd hw
  refine ⟨stop, extra, hex, ?_⟩
  have hany : anyClass 'v' = true := by decide
  rw [tagPattern_run]
  simp only [plusCls, hany, if_true,
    starCls_slashCont_none _ _ (d :: w) (fun c hc => hslash c (List.mem_cons_of_mem _ hc)),
    hrun]

/-- C11, as the code has it. Let `v` be a version string that starts with `v` and a
digit, holds no `/` and no line feed, and is accepted by the semver parser; let `g` be a
non-empty group without line feed. Then `parseVersionWithGroup(g + "/" + v)` returns the
group `g` and the version parsed from `v`, with no error, and `parseVersionWithGroup(v)`
returns the empty group and that same version; and a name that the tag pattern does not
match is rejected with an error. -/
theorem parseVersionWithGroup_spec {Version : Type}
    (NewVersion : String → Except ExtErr Version) :
    (∀ (g : List Char) (d : Char) (w : List Char) (version : Version),
        g ≠ [] → (∀ c ∈ g, c ≠ '\n') →
        digitClass d = true → (∀ c ∈ 'v' :: d :: w, c ≠ '/' ∧ c ≠ '\n') →
        NewVersion (String.mk ('v' :: d :: w)) = .ok version →
        parseVersionWithGroup NewVersion (String.mk (g ++ '/' :: 'v' :: d :: w))
            = (String.mk g, some version, none)
          ∧ parseVersionWithGroup NewVersion (String.mk ('v' :: d :: w))
            = ("", some version, none))
      ∧ (∀ name : String, FindStringSubmatch tagPattern 3 name = none →
          parseVersionWithGroup NewVersion name
            = ("", none, some (.msg ("tag '" ++ name ++ "' does not match pattern")))) := by
  constructor
  · intro g d w version hg hgnl hd hv hsem
    have hw : ∀ c ∈ w, anyClass c = true := by
      intro c hc
      have := (hv c (List.mem_cons_of_mem _ (List.mem_cons_of_mem _ hc))).2
      simpa [anyClass] using this
    have hslash : ∀ c ∈ 'v' :: d :: w, slashClass c = false := by
      intro c hc
      simpa [slashClass] using (hv c hc).1
    constructor
    · obtain ⟨g0, g1, rfl⟩ := List.exists_cons_of_ne_nil hg
      have hany : ∀ c ∈ g0 :: g1, anyClass c = true := by
        intro c hc
        simpa [anyClass] using hgnl c hc
      obtain ⟨stop, extra, hex, hrun⟩ := tagPattern_run_group g0 g1 d w hany hd hw hslash
      have e3 : g0 :: g1 ++ '/' :: 'v' :: d :: w = ((g0 :: g1) ++ ['/']) ++ 'v' :: d :: w := by
        simp
      have e1 : (g0 :: g1 ++ '/' :: 'v' :: d :: w).take (1 + g1.length + 1)
          = (g0 :: g1) ++ ['/'] := by
        rw [e3]
        exact List.take_left' (by simp; omega)
      have e2 : (g0 :: g1 ++ '/' :: 'v' :: d :: w).take (1 + g1.length) = g0 :: g1 :=
        List.take_left' (by simp; omega)
      rw [parseVersionWithGroup_of_run NewVersion _ _ hrun,
        submatch_skip _ 1 stop (by decide) (by decide) _ extra hex,
        submatch_skip _ 2 stop (by decide) (by decide) _ extra hex,
        (submatch_groups _ _ _).1, (submatch_groups _ _ _).2, e1, e2]
      rw [show String.mk (g0 :: g1 ++ '/' :: 'v' :: d :: w)
          = String.mk (((g0 :: g1) ++ ['/']) ++ 'v' :: d :: w) by rw [← e3],
        TrimPrefix_append, hsem]
    · obtain ⟨stop, extra, hex, hrun⟩ := tagPattern_run_plain d w hd hw hslash
      have hnil : ∀ i, submatch ('v' :: d :: w) [] i = "" := fun i => rfl
      rw [parseVersionWithGroup_of_run NewVersion _ _ hrun,
        submatch_skip _ 1 stop (by decide) (by decide) _ extra hex,
        submatch_skip _ 2 stop (by decide) (by decide) _ extra hex, hnil, hnil,
        TrimPrefix_empty, hsem]
  · intro name h
    simp [parseVersionWithGroup, h]

/-- An instance of C11 as the code has it, the names of the two tests of
`parseVersionWithGroup`. -/
theorem parseVersionWithGroup_spec_witness :
    parseVersionWithGroup demoNewVersion "ocs-backend/v1.0.1-rc.1"
        = ("ocs-backend", some "v1.0.1-rc.1", none)
      ∧ parseVersionWithGroup demoNewVersion "v1.0.1-rc.1" = ("", some "v1.0.1-rc.1", none) :=
  (parseVersionWithGroup_spec demoNewVersion).1 "ocs-backend".data '1' ".0.1-rc.1".data
    "v1.0.1-rc.1" (by decide) (by decide) (by decide) (by decide) rfl

/-- C11 as stated fails. The version `v1.0.0` starts with `v` and a digit, holds no `/`
and is accepted by the semver parser, and the group `a⏎b` (with a line feed between the
two letters) is not empty; yet `parseVersionWithGroup` rejects the name made of the
group, `/` and the version: `.+` does not go past the line feed. -/
theorem parseVersionWithGroup_group_with_newline :
    demoNewVersion "v1.0.0" = .ok "v1.0.0"
      ∧ "a\nb" ++ "/" ++ "v1.0.0" = "a\nb/v1.0.0"
      ∧ parseVersionWithGroup demoNewVersion "a\nb/v1.0.0"
          = ("", none, some (.msg "tag 'a\nb/v1.0.0' does not match pattern"))
      ∧ parseVersionWithGroup demoNewVersion "a\nb/v1.0.0" ≠ ("a\nb", some "v1.0.0", none) := by
  refine ⟨rfl, by decide, by decide, by decide⟩

end tags

end Tb
